import Mathlib

/-!
# SimpleCalculator: the calculator engine of `MainWindow`

A shallow embedding of `src/mainwindow.cpp` (the state held by `MainWindow` and the
actions `insertDigit`, `insertDot`, `clearAll`, `backspace`, `toggleSign`, `setOp`,
`equals`, `applyPending`, with the helpers `refreshDisplay` and `normalizeNumber`),
followed by theorems about it.

Modelling conventions.

* `QString` is a list of characters.  Every character the engine handles lies in the
  Basic Multilingual Plane (the digits, `.`, `-`, `+`, `e`, the blank, `=`, `*`, `÷`),
  so one `QChar` is one `Char`.
* `double` is idealised as `Dbl`: an exact rational number or the not-a-number value.
  Arithmetic is exact, so there is no rounding, no overflow and hence no infinity, and
  the two zeros of IEEE-754 are identified (Qt prints both as `0` and `b == 0.0` holds
  for both).  The model agrees with the machine wherever the machine result is exact,
  in particular on integers of magnitude below `10 ^ 15`; the theorems about the
  engine that speak about concrete numbers stay inside that range.
* `QString::number` and `QString::toDouble` are Qt library functions; `number` and
  `toDouble` below describe them on `Dbl`.
* The text of the widget `ui->lineEdit_Output` is the field `lineEdit_Output`.
-/

namespace SimpleCalculator

-- The arithmetic of `ℚ` unfolds, so that `decide` evaluates the engine on concrete inputs.
unseal Rat.add Rat.mul Rat.inv Rat.sub

/-! ## Strings -/

/-- A `QString`, as its sequence of characters. -/
abbrev QString := List Char

namespace QString

/-- Model of `QString::isEmpty`. -/
def isEmpty (s : QString) : Bool := s.length == 0

/-- Model of `QString::contains(QChar)`. -/
def contains (s : QString) (c : Char) : Bool := s.any (fun x => x == c)

/-- Model of `QString::endsWith(QChar)`. -/
def endsWith (s : QString) (c : Char) : Bool := s.getLast? == some c

/-- Model of `QString::chop(n)`: removes `n` characters from the end; the result is empty when
`n` is at least the size. -/
def chop (s : QString) (n : Nat) : QString := s.take (s.length - n)

end QString

/-- Decimal text of a natural number, most significant digit first. -/
def natText (n : Nat) : QString := Nat.toDigits 10 n

/-- Model of `QString::number(int)`: decimal text of an integer, with `-` for a negative one. -/
def intText (z : Int) : QString :=
  if z < 0 then '-' :: natText z.natAbs else natText z.natAbs

/-! ## Numbers -/

/-- The values of a `double`, idealised (see the conventions above). -/
inductive Dbl
  | fin (q : ℚ)
  | nan
  deriving DecidableEq

namespace Dbl

/-- The `double` literal `0.0`. -/
def zero : Dbl := fin 0

/-- Addition `a + b`; not-a-number propagates. -/
def add : Dbl → Dbl → Dbl
  | fin a, fin b => fin (a + b)
  | _, _ => nan

/-- Subtraction `a - b`; not-a-number propagates. -/
def sub : Dbl → Dbl → Dbl
  | fin a, fin b => fin (a - b)
  | _, _ => nan

/-- Multiplication `a * b`; not-a-number propagates. -/
def mul : Dbl → Dbl → Dbl
  | fin a, fin b => fin (a * b)
  | _, _ => nan

/-- Division `a / b`.  The engine only divides by a non-zero `b`; the quotient `0 / 0`
of IEEE-754 is not a number. -/
def div : Dbl → Dbl → Dbl
  | fin a, fin b => if b = 0 then nan else fin (a / b)
  | _, _ => nan

/-- Unary minus `-v`. -/
def neg : Dbl → Dbl
  | fin a => fin (-a)
  | nan => nan

/-- The comparison `b == 0.0`; it is false for not-a-number. -/
def isZero : Dbl → Bool
  | fin a => decide (a = 0)
  | nan => false

/-- The integer `z` as a `double`. -/
def ofInt (z : Int) : Dbl := fin (z : ℚ)

end Dbl

/-! ### `QString::number(v, 'g', 15)` -/

/-- The decimal exponent of the positive rational `n / d`: the `x` with
`10 ^ x ≤ n / d < 10 ^ (x + 1)`. -/
def decExp (n d : Nat) : Int :=
  if d ≤ n then ((natText (n / d)).length : Int) - 1
  else
    -((((List.range ((natText d).length + 1)).find? (fun k => d ≤ n * 10 ^ k)).getD 0 : Nat)
        : Int)

/-- The first fifteen significant digits of `n / d` as a natural number: `n / d` scaled
by `10 ^ (14 - x)` and rounded to the nearest integer, halves upwards. -/
def sig15 (n d : Nat) (x : Int) : Nat :=
  let p := 14 - x
  let num := if 0 ≤ p then n * 10 ^ p.toNat else n
  let den := if 0 ≤ p then d else d * 10 ^ (-p).toNat
  (2 * num + den) / (2 * den)

/-- Layout of the `'g'` format with precision 15 for the significant digits `ds`
(without trailing zeros) and the position `decpt` of the decimal point relative to
their start: exponent form `d.ddde±XX` (at least two exponent digits) when `decpt ≤ -4` or
`decpt > 15`, plain decimal form otherwise. -/
def layoutG (ds : QString) (decpt : Int) : QString :=
  if decpt ≤ -4 ∨ 15 < decpt then
    let e := decpt - 1
    let mant := match ds with
      | [] => []
      | [c] => [c]
      | c :: rest => c :: '.' :: rest
    let ex := natText e.natAbs
    mant ++ ['e', if e < 0 then '-' else '+'] ++ (if ex.length < 2 then '0' :: ex else ex)
  else if decpt ≤ 0 then
    '0' :: '.' :: (List.replicate (-decpt).toNat '0' ++ ds)
  else if decpt.toNat < ds.length then
    ds.take decpt.toNat ++ '.' :: ds.drop decpt.toNat
  else
    ds ++ List.replicate (decpt.toNat - ds.length) '0'

/-- Model of `QString::number(v, 'g', 15)`: at most fifteen significant digits, no
trailing zeros, exponent form for very large or very small magnitudes, `nan` for
not-a-number and `0` for zero. -/
def number : Dbl → QString
  | .nan => ['n', 'a', 'n']
  | .fin q =>
    if q.num = 0 then ['0']
    else
      let n := q.num.natAbs
      let d := q.den
      let x := decExp n d
      let s := sig15 n d x
      (if q.num < 0 then ['-'] else []) ++
        layoutG ((natText s).rdropWhile (fun c => c == '0'))
          (x + 1 + (if 10 ^ 15 ≤ s then 1 else 0))

/-! ### `QString::toDouble` -/

/-- Value of a string of decimal digits. -/
def natOfDigits (s : QString) : Nat :=
  s.foldl (fun a c => 10 * a + (c.toNat - 48)) 0

/-- The rational `± m * 10 ^ e`. -/
def ofDecimal (negative : Bool) (m : Nat) (e : Int) : ℚ :=
  let z : Int := if negative then -(m : Int) else (m : Int)
  if 0 ≤ e then mkRat (z * 10 ^ e.toNat) 1 else mkRat z (10 ^ (-e).toNat)

/-- An optional sign in front of a string. -/
def splitSign : QString → Bool × QString
  | '-' :: r => (true, r)
  | '+' :: r => (false, r)
  | s => (false, s)

/-- The exponent part of a number: nothing, or `e` / `E`, an optional sign and at least
one digit. -/
def parseExponent : QString → Option Int
  | [] => some 0
  | _ :: r =>
    let (negative, ds) := splitSign r
    if ds ≠ [] ∧ ds.all Char.isDigit then
      some (if negative then -(natOfDigits ds : Int) else (natOfDigits ds : Int))
    else none

/-- The fractional part of a number: nothing, or a point followed by digits. -/
def parseFraction : QString → Option QString
  | [] => some []
  | '.' :: f => if f.all Char.isDigit then some f else none
  | _ => none

/-- Model of `QString::toDouble(&ok)`: `none` stands for `ok == false`.  Accepted are
the word `nan` and the decimal numbers of the C locale: an optional sign, digits with
an optional point (at least one digit), and an optional exponent.  Surrounding white
space and the words for infinity (which exact arithmetic never produces) are not
modelled. -/
def toDouble (s : QString) : Option Dbl :=
  if s = ['n', 'a', 'n'] then some .nan
  else
    let (negative, body) := splitSign s
    let (mant, ex) := body.span (fun c => c != 'e' && c != 'E')
    let (ip, rest) := mant.span Char.isDigit
    match parseFraction rest, parseExponent ex with
    | some fp, some e =>
      if ip ++ fp = [] then none
      else some (.fin (ofDecimal negative (natOfDigits (ip ++ fp)) (e - fp.length)))
    | _, _ => none

/-- Model of `QString::toDouble()` without the `ok` flag: `0.0` when the conversion
fails. -/
def toDoubleOrZero (s : QString) : Dbl := (toDouble s).getD Dbl.zero

/-! ## The engine state -/

/-- The calculator fields of `MainWindow` together with the text shown by the widget
`ui->lineEdit_Output`. -/
structure State where
  /-- The accumulator `total`. -/
  total : Dbl
  /-- The pending operator `pendingOp_`: empty, or one of `+`, `-`, `*`, `÷`. -/
  pendingOp_ : QString
  /-- The flag `clearOnNextDigit_`. -/
  clearOnNextDigit_ : Bool
  /-- The committed left part `expr_` of the expression, such as `8 * `. -/
  expr_ : QString
  /-- The number `entry_` being typed. -/
  entry_ : QString
  /-- The text of `ui->lineEdit_Output`. -/
  lineEdit_Output : QString
  deriving DecidableEq

/-- The table `ops_` built by the constructor: operator symbol and function. -/
def ops_ : List (QString × (Dbl → Dbl → Dbl)) :=
  [ (['+'], fun a b => Dbl.add a b),
    (['-'], fun a b => Dbl.sub a b),
    (['*'], fun a b => Dbl.mul a b),
    (['÷'], fun a b => if Dbl.isZero b then Dbl.nan else Dbl.div a b) ]

/-- The helper `MainWindow::refreshDisplay`. -/
def refreshDisplay (s : State) : State :=
  let shown := if (s.expr_ ++ s.entry_).isEmpty then ['0'] else s.expr_ ++ s.entry_
  { s with lineEdit_Output := shown }

/-- The loop `while (s.endsWith('0')) s.chop(1);` of `normalizeNumber`, with the number
of iterations bounded by `fuel`. -/
def chopZerosLoop : Nat → QString → QString
  | 0, s => s
  | fuel + 1, s => if s.endsWith '0' then chopZerosLoop fuel (s.chop 1) else s

/-- The loop `while (s.endsWith('0')) s.chop(1);` of `normalizeNumber`: every iteration
removes a character, so `s.length` iterations are enough (`chopZeros_not_endsWith`). -/
def chopZeros (s : QString) : QString := chopZerosLoop s.length s

/-- The helper `MainWindow::normalizeNumber`, returning the new value of its reference
argument. -/
def normalizeNumber (s : QString) : QString :=
  if !s.contains '.' then s
  else
    let s := chopZeros s
    let s := if s.endsWith '.' then s.chop 1 else s
    if s.isEmpty then ['0'] else s

/-- The state set up by the constructor `MainWindow::MainWindow`. -/
def init : State :=
  refreshDisplay
    { total := Dbl.zero, pendingOp_ := [], expr_ := [], entry_ := ['0'],
      clearOnNextDigit_ := false, lineEdit_Output := [] }

/-- The action `MainWindow::insertDigit`. -/
def insertDigit (d : Int) (s : State) : State :=
  let s := if s.clearOnNextDigit_ then { s with entry_ := ['0'], clearOnNextDigit_ := false } else s
  let s := if s.entry_ = ['0'] then { s with entry_ := [] } else s
  let s := { s with entry_ := s.entry_ ++ intText d }
  refreshDisplay s

/-- The action `MainWindow::insertDot`. -/
def insertDot (s : State) : State :=
  let s := if s.clearOnNextDigit_ then { s with entry_ := ['0'], clearOnNextDigit_ := false } else s
  let s := if !s.entry_.contains '.' then { s with entry_ := s.entry_ ++ ['.'] } else s
  refreshDisplay s

/-- The action `MainWindow::clearAll`. -/
def clearAll (s : State) : State :=
  refreshDisplay
    { s with total := Dbl.zero, pendingOp_ := [], expr_ := [], entry_ := ['0'],
             clearOnNextDigit_ := false }

/-- The action `MainWindow::backspace`. -/
def backspace (s : State) : State :=
  if s.clearOnNextDigit_ then
    refreshDisplay { s with clearOnNextDigit_ := false, entry_ := ['0'] }
  else
    let s := if s.entry_.length ≤ 1 then { s with entry_ := ['0'] }
             else { s with entry_ := s.entry_.chop 1 }
    refreshDisplay s

/-- The action `MainWindow::toggleSign`. -/
def toggleSign (s : State) : State :=
  match toDouble s.entry_ with
  | none => s
  | some v => refreshDisplay { s with entry_ := number (Dbl.neg v) }

/-- The action `MainWindow::applyPending`. -/
def applyPending (rhs : Dbl) (s : State) : State :=
  if s.pendingOp_.isEmpty then { s with total := rhs }
  else
    match ops_.lookup s.pendingOp_ with
    | some f => { s with total := f s.total rhs }
    | none => s

/-- The action `MainWindow::setOp`. -/
def setOp (op : QString) (s : State) : State :=
  if !s.pendingOp_.isEmpty && s.entry_.isEmpty && (!s.expr_.isEmpty && s.expr_.endsWith ' ') then
    -- the user tapped an operator twice: replace the operator
    refreshDisplay { s with expr_ := s.expr_.chop 2 ++ (op ++ [' ']), pendingOp_ := op }
  else if s.pendingOp_.isEmpty then
    -- start a new expression
    let rhs := (toDouble s.entry_).getD Dbl.zero
    let pretty := normalizeNumber s.entry_
    refreshDisplay
      { s with total := rhs, expr_ := pretty ++ [' '] ++ op ++ [' '], entry_ := [],
               pendingOp_ := op, clearOnNextDigit_ := false }
  else if !s.entry_.isEmpty then
    -- a pending operator and a new right-hand side: compute and continue
    let rhs := toDoubleOrZero s.entry_
    let s := applyPending rhs s
    let pretty := normalizeNumber (number s.total)
    refreshDisplay
      { s with expr_ := pretty ++ [' '] ++ op ++ [' '], entry_ := [], pendingOp_ := op,
               clearOnNextDigit_ := false }
  else
    -- operator pressed again without a right-hand side
    let s := { s with pendingOp_ := op }
    let s :=
      if !s.expr_.isEmpty then
        if s.expr_.endsWith ' ' then { s with expr_ := s.expr_.chop 2 ++ (op ++ [' ']) } else s
      else { s with expr_ := ['0', ' '] ++ op ++ [' '] }
    refreshDisplay s

/-- The action `MainWindow::equals`. -/
def equals (s : State) : State :=
  if s.pendingOp_.isEmpty then refreshDisplay s
  else
    let rhs := if s.entry_.isEmpty then s.total else toDoubleOrZero s.entry_
    let s1 := applyPending rhs s
    let right := normalizeNumber (if s.entry_.isEmpty then number rhs else s.entry_)
    let result := normalizeNumber (number s1.total)
    { s1 with lineEdit_Output := s.expr_ ++ right ++ [' ', '=', ' '] ++ result,
              expr_ := [], entry_ := result, pendingOp_ := [], clearOnNextDigit_ := true }

/-! ## The buttons -/

/-- The buttons of the window that reach the engine, one per `on_button_*_clicked`
slot. -/
inductive Button
  /-- The buttons `button_0` to `button_9`. -/
  | digit (d : Fin 10)
  /-- The button `button_decimal`. -/
  | decimal
  /-- The button `button_C`. -/
  | C
  /-- The button `button_CE`. -/
  | CE
  /-- The button `button_Delete`. -/
  | Delete
  /-- The button `button_PosNeg`. -/
  | PosNeg
  /-- The button `button_Add`. -/
  | Add
  /-- The button `button_Minus`. -/
  | Minus
  /-- The button `button_Multiply`. -/
  | Multiply
  /-- The button `button_Divide`. -/
  | Divide
  /-- The button `button_Equals`. -/
  | Equals
  deriving DecidableEq

/-- The slot run by a click on a button. -/
def click (b : Button) (s : State) : State :=
  match b with
  | .digit d => insertDigit (d.val : Int) s
  | .decimal => insertDot s
  | .C => clearAll s
  | .CE => clearAll s
  | .Delete => backspace s
  | .PosNeg => toggleSign s
  | .Add => setOp ['+'] s
  | .Minus => setOp ['-'] s
  | .Multiply => setOp ['*'] s
  | .Divide => setOp ['÷'] s
  | .Equals => equals s

/-- The state after a sequence of clicks, the first of the list first. -/
def run (bs : List Button) (s : State) : State := bs.foldl (fun st b => click b st) s

/-! ## Names of the specification -/

/-- The zero state of the specification: `total = 0`, no pending operator, empty
`Expr`, `Entry` equal to `0`, `clearOnNextDigit` false; its display is `0`. -/
def zeroState : State :=
  { total := Dbl.fin 0, pendingOp_ := [], clearOnNextDigit_ := false, expr_ := [],
    entry_ := ['0'], lineEdit_Output := ['0'] }

/-- The four operators of the specification. -/
inductive Operator
  | plus
  | minus
  | times
  | divide
  deriving DecidableEq

namespace Operator

/-- The symbol passed to `setOp` for an operator. -/
def symbol : Operator → QString
  | plus => ['+']
  | minus => ['-']
  | times => ['*']
  | divide => ['÷']

/-- The button of an operator. -/
def button : Operator → Button
  | plus => .Add
  | minus => .Minus
  | times => .Multiply
  | divide => .Divide

end Operator

/-- The keys that edit `entry_` by typing: a digit or the decimal point. -/
inductive EntryKey
  | digit (d : Fin 10)
  | dot
  deriving DecidableEq

namespace EntryKey

/-- The button of a key. -/
def button : EntryKey → Button
  | digit d => .digit d
  | dot => .decimal

/-- The character a key stands for. -/
def char : EntryKey → Char
  | digit d => Nat.digitChar d.val
  | dot => '.'

end EntryKey

/-- The literal sequence of typed characters. -/
def typedText (ks : List EntryKey) : QString := ks.map EntryKey.char

/-- Collapse of leading zeros: the leading `0` characters are dropped, and a single `0`
is kept when nothing or a decimal point follows them. -/
def collapseLeadingZeros (t : QString) : QString :=
  let r := t.dropWhile (fun c => c == '0')
  if r = [] ∨ r.head? = some '.' then '0' :: r else r

/-- The string without its decimal points after the first one. -/
def dropLaterDots : QString → QString
  | [] => []
  | c :: t => if c = '.' then '.' :: t.filter (fun x => x != '.') else c :: dropLaterDots t

/-- Decimal digits of `n`, most significant first, computed with `fuel` division
steps. -/
def decDigitsFuel : Nat → Nat → List (Fin 10)
  | 0, _ => []
  | fuel + 1, n =>
    if n < 10 then [⟨n % 10, Nat.mod_lt n (by decide)⟩]
    else decDigitsFuel fuel (n / 10) ++ [⟨n % 10, Nat.mod_lt n (by decide)⟩]

/-- Decimal digits of `n`, most significant first; the digits of `0` are `[0]`. -/
def decDigits (n : Nat) : List (Fin 10) := decDigitsFuel (n + 1) n

/-- The clicks that type the natural number `n` digit by digit. -/
def typeNat (n : Nat) : List Button := (decDigits n).map Button.digit

/-- The operators `+`, `-`, `*`, which are exact on integers. -/
inductive ExactOp
  | plus
  | minus
  | times
  deriving DecidableEq

namespace ExactOp

/-- The operator as one of the four operators of the specification. -/
def operator : ExactOp → Operator
  | plus => .plus
  | minus => .minus
  | times => .times

/-- The value of `a op b` on integers. -/
def eval : ExactOp → Int → Int → Int
  | plus, a, b => a + b
  | minus, a, b => a - b
  | times, a, b => a * b

end ExactOp

/-- The left fold `((n0 op1 n1) op2 n2) ... opk nk` of a chain on integers. -/
def leftFold (n0 : Nat) (chain : List (ExactOp × Nat)) : Int :=
  chain.foldl (fun acc p => p.1.eval acc (p.2 : Int)) (n0 : Int)

/-- The clicks of a chain after its first operand: each operator followed by its
operand typed digit by digit. -/
def chainKeys : List (ExactOp × Nat) → List Button
  | [] => []
  | p :: rest => p.1.operator.button :: (typeNat p.2 ++ chainKeys rest)

/-- A chain whose values are small enough to be exact: every operand and every partial
result of the left fold has magnitude below `10 ^ 15`. -/
def ExactChain (n0 : Nat) (chain : List (ExactOp × Nat)) : Prop :=
  (∀ p ∈ chain, p.2 < 10 ^ 15) ∧
  ∀ i, i ≤ chain.length → (leftFold n0 (chain.take i)).natAbs < 10 ^ 15

instance (n0 : Nat) (chain : List (ExactOp × Nat)) : Decidable (ExactChain n0 chain) := by
  unfold ExactChain
  infer_instance

/-- The states the engine can reach: the constructor state followed by any sequence of
clicks. -/
def Reachable (s : State) : Prop := ∃ bs : List Button, run bs init = s

/-- The coupling of the chain fields: the pending operator is absent or one of the four
symbols; `expr_` is empty exactly when no operator is pending; with a pending operator
`expr_` ends with that operator and one blank; `entry_` is empty only while an
operator is pending; the flag is set only while no operator is pending. -/
def Coupled (s : State) : Prop :=
  (s.pendingOp_ = [] ∨ ∃ o : Operator, s.pendingOp_ = o.symbol) ∧
  (s.expr_ = [] ↔ s.pendingOp_ = []) ∧
  (s.pendingOp_ ≠ [] → ∃ t : QString, s.expr_ = t ++ s.pendingOp_ ++ [' ']) ∧
  (s.entry_ = [] → s.pendingOp_ ≠ []) ∧
  (s.clearOnNextDigit_ = true → s.pendingOp_ = [])

/-! ## Basic facts about strings -/

@[simp] theorem QString.isEmpty_eq_true (s : QString) : QString.isEmpty s = true ↔ s = [] := by
  cases s <;> simp [QString.isEmpty]

@[simp] theorem QString.isEmpty_eq_false (s : QString) : QString.isEmpty s = false ↔ s ≠ [] := by
  cases s <;> simp [QString.isEmpty]

@[simp] theorem QString.isEmpty_nil : QString.isEmpty [] = true := rfl

@[simp] theorem QString.endsWith_append_singleton (s : QString) (c d : Char) :
    QString.endsWith (s ++ [c]) d = (c == d) := by
  simp [QString.endsWith]

@[simp] theorem QString.endsWith_nil (d : Char) : QString.endsWith [] d = false := by
  simp [QString.endsWith]

theorem QString.chop_append (s t : QString) (n : Nat) (h : t.length = n) :
    QString.chop (s ++ t) n = s := by
  subst h
  simp [QString.chop]

@[simp] theorem QString.endsWith_append_cons (s t : QString) (x c : Char) :
    QString.endsWith (s ++ x :: t) c = QString.endsWith (x :: t) c := by
  simp [QString.endsWith, List.getLast?_append]

@[simp] theorem QString.endsWith_pair (x c : Char) :
    QString.endsWith [x, ' '] c = (' ' == c) := by
  simp [QString.endsWith]

@[simp] theorem QString.chop_append_pair (s : QString) (x y : Char) :
    QString.chop (s ++ [x, y]) 2 = s :=
  QString.chop_append s [x, y] 2 rfl

@[simp] theorem QString.chop_append_triple (s : QString) (x y z : Char) :
    QString.chop (s ++ [x, y, z]) 2 = s ++ [x] := by
  have h := QString.chop_append (s ++ [x]) [y, z] 2 rfl
  simpa using h

@[simp] theorem QString.chop_append_single (s : QString) (x : Char) :
    QString.chop (s ++ [x]) 1 = s :=
  QString.chop_append s [x] 1 rfl

/-! ## The two branches of `equals` -/

/-- The branch of `equals` without a pending operator: only the display is refreshed. -/
theorem equals_of_pendingOp_nil (s : State) (h : s.pendingOp_ = []) :
    equals s =
      { s with lineEdit_Output := if s.expr_ ++ s.entry_ = [] then ['0'] else s.expr_ ++ s.entry_ } := by
  simp [equals, h, refreshDisplay]

/-- The fields written by `equals` when an operator is pending. -/
theorem equals_of_pendingOp_ne_nil (s : State) (h : s.pendingOp_ ≠ []) :
    (equals s).lineEdit_Output =
      s.expr_ ++ normalizeNumber (if s.entry_ = [] then number s.total else s.entry_)
        ++ [' ', '=', ' '] ++ normalizeNumber (number (equals s).total) ∧
    (equals s).pendingOp_ = [] ∧
    (equals s).expr_ = [] ∧
    (equals s).entry_ = normalizeNumber (number (equals s).total) ∧
    (equals s).clearOnNextDigit_ = true := by
  refine ⟨?_, ?_, ?_, ?_, ?_⟩
  · by_cases he : s.entry_ = [] <;> simp [equals, h, he]
  · simp [equals, h]
  · simp [equals, h]
  · simp [equals, h]
  · simp [equals, h]

/-! ## Reset, and `equals` without a pending operator -/

/-- C5: `clearAll` sends every state to the zero state (display `0`), which is also the
state set up by the constructor, and `clearAll` is idempotent. -/
theorem clearAll_total_reset (s : State) :
    clearAll s = zeroState ∧ init = zeroState ∧ clearAll (clearAll s) = clearAll s := by
  refine ⟨rfl, rfl, rfl⟩

/-- C10: with no pending operator `equals` leaves `total`, `pendingOp_`, `expr_`,
`entry_` and `clearOnNextDigit_` unchanged and sets the display to `expr_ + entry_`,
or to `0` when that is empty. -/
theorem equals_without_pending (s : State) (h : s.pendingOp_ = []) :
    equals s =
      { s with lineEdit_Output := if s.expr_ ++ s.entry_ = [] then ['0'] else s.expr_ ++ s.entry_ } :=
  equals_of_pendingOp_nil s h

/-- Witness for `equals_without_pending`, at the state after typing `4`, `2`. -/
theorem equals_without_pending_witness :
    (run [.digit 4, .digit 2] init).pendingOp_ = [] ∧
    equals (run [.digit 4, .digit 2] init) =
      { run [.digit 4, .digit 2] init with lineEdit_Output := ['4', '2'] } :=
  ⟨by decide, equals_without_pending (run [.digit 4, .digit 2] init) (by decide)⟩

theorem Operator.symbol_eq_singleton (o : Operator) : ∃ c : Char, o.symbol = [c] := by
  cases o <;> exact ⟨_, rfl⟩

@[simp] theorem QString.endsWith_cons_cons (x y c : Char) (t : QString) :
    QString.endsWith (x :: y :: t) c = QString.endsWith (y :: t) c := by
  simp [QString.endsWith, List.getLast?_cons_cons]

@[simp] theorem QString.endsWith_singleton (x c : Char) :
    QString.endsWith [x] c = (x == c) := by
  simp [QString.endsWith]

/-! ## The branches of `setOp` -/

/-- The display shown by `refreshDisplay` when `expr_` is not empty. -/
theorem refreshDisplay_of_expr_ne_nil (s : State) (h : s.expr_ ≠ []) :
    refreshDisplay s = { s with lineEdit_Output := s.expr_ ++ s.entry_ } := by
  simp [refreshDisplay, h]

/-- First branch of `setOp`: a pending operator, no right-hand side yet and `expr_`
ending in a blank; the operator at the end of `expr_` is replaced. -/
theorem setOp_replace (op : QString) (s : State) (hp : s.pendingOp_ ≠ []) (he : s.entry_ = [])
    (hx : s.expr_ ≠ []) (hxe : s.expr_.endsWith ' ' = true) :
    setOp op s =
      { s with expr_ := s.expr_.chop 2 ++ (op ++ [' ']), pendingOp_ := op,
               lineEdit_Output := s.expr_.chop 2 ++ (op ++ [' ']) } := by
  simp [setOp, refreshDisplay, hp, he, hx, hxe]

/-- Second branch of `setOp`: no pending operator; a new expression starts. -/
theorem setOp_fresh (op : QString) (s : State) (hp : s.pendingOp_ = []) :
    setOp op s =
      { s with total := (toDouble s.entry_).getD Dbl.zero,
               expr_ := normalizeNumber s.entry_ ++ [' '] ++ op ++ [' '], entry_ := [],
               pendingOp_ := op, clearOnNextDigit_ := false,
               lineEdit_Output := normalizeNumber s.entry_ ++ [' '] ++ op ++ [' '] } := by
  simp [setOp, refreshDisplay, hp]

/-- Third branch of `setOp`: a pending operator and a right-hand side; the pending
operator is applied and the chain continues. -/
theorem setOp_continue (op : QString) (s : State) (hp : s.pendingOp_ ≠ []) (he : s.entry_ ≠ []) :
    setOp op s =
      { applyPending (toDoubleOrZero s.entry_) s with
          expr_ := normalizeNumber (number (applyPending (toDoubleOrZero s.entry_) s).total)
                      ++ [' '] ++ op ++ [' '],
          entry_ := [], pendingOp_ := op, clearOnNextDigit_ := false,
          lineEdit_Output :=
            normalizeNumber (number (applyPending (toDoubleOrZero s.entry_) s).total)
              ++ [' '] ++ op ++ [' '] } := by
  simp [setOp, refreshDisplay, hp, he]

/-- Last branch of `setOp` with an empty `expr_`. -/
theorem setOp_fallback_nil (op : QString) (s : State) (hp : s.pendingOp_ ≠ []) (he : s.entry_ = [])
    (hx : s.expr_ = []) :
    setOp op s =
      { s with pendingOp_ := op, expr_ := ['0', ' '] ++ op ++ [' '],
               lineEdit_Output := ['0', ' '] ++ op ++ [' '] } := by
  simp [setOp, refreshDisplay, hp, he, hx]

/-- Last branch of `setOp` with an `expr_` that does not end in a blank. -/
theorem setOp_fallback_keep (op : QString) (s : State) (hp : s.pendingOp_ ≠ [])
    (he : s.entry_ = []) (hx : s.expr_ ≠ []) (hxe : s.expr_.endsWith ' ' = false) :
    setOp op s = { s with pendingOp_ := op, lineEdit_Output := s.expr_ } := by
  simp [setOp, refreshDisplay, hp, he, hx, hxe]

/-- The action `applyPending` changes the accumulator only. -/
theorem applyPending_frame (rhs : Dbl) (s : State) :
    applyPending rhs s = { s with total := (applyPending rhs s).total } := by
  unfold applyPending
  split
  · rfl
  · split <;> rfl

/-- Two taps on one-character operators in a row act as the second tap alone. -/
theorem setOp_setOp_singleton (s : State) (c d : Char) :
    setOp [d] (setOp [c] s) = setOp [d] s := by
  by_cases hp : s.pendingOp_ = []
  · rw [setOp_fresh [c] s hp, setOp_fresh [d] s hp, setOp_replace] <;> simp
  · by_cases he : s.entry_ = []
    · by_cases hx : s.expr_ = []
      · rw [setOp_fallback_nil [c] s hp he hx, setOp_fallback_nil [d] s hp he hx, setOp_replace]
          <;> simp [he, QString.chop]
      · by_cases hxe : s.expr_.endsWith ' ' = true
        · rw [setOp_replace [c] s hp he hx hxe, setOp_replace [d] s hp he hx hxe, setOp_replace]
            <;> simp [he]
        · simp only [Bool.not_eq_true] at hxe
          rw [setOp_fallback_keep [c] s hp he hx hxe, setOp_fallback_keep [d] s hp he hx hxe,
            setOp_fallback_keep] <;> simp [he, hx, hxe]
    · rw [setOp_continue [c] s hp he, setOp_continue [d] s hp he, setOp_replace] <;> simp

/-- C3: tapping an operator `a` and then an operator `b` leaves exactly the state and
display that tapping `b` alone leaves, from every state; so `7, +, -, 3, =` and
`7, -, 3, =` both end with the result `4`. -/
theorem setOp_double_tap_replaces (s : State) (a b : Operator) :
    setOp b.symbol (setOp a.symbol s) = setOp b.symbol s ∧
    (run [.digit 7, .Add, .Minus, .digit 3, .Equals] init).entry_ = ['4'] ∧
    (run [.digit 7, .Minus, .digit 3, .Equals] init).entry_ = ['4'] ∧
    (run [.digit 7, .Add, .Minus, .digit 3, .Equals] init).total = Dbl.fin 4 ∧
    (run [.digit 7, .Minus, .digit 3, .Equals] init).total = Dbl.fin 4 := by
  refine ⟨?_, by decide, by decide, by decide, by decide⟩
  obtain ⟨c, hc⟩ := a.symbol_eq_singleton
  obtain ⟨d, hd⟩ := b.symbol_eq_singleton
  rw [hc, hd]
  exact setOp_setOp_singleton s c d

/-! ## Results of `number` and `normalizeNumber` are never empty -/

theorem layoutG_ne_nil (ds : QString) (decpt : Int) : layoutG ds decpt ≠ [] := by
  unfold layoutG
  split_ifs with h1 h2 h3
  · simp
  · simp
  · simp
  · intro h
    rw [List.append_eq_nil] at h
    obtain ⟨hds, hrep⟩ := h
    subst hds
    simp only [List.length_nil, Nat.sub_zero] at hrep
    have : decpt.toNat = 0 := by
      cases hn : decpt.toNat with
      | zero => rfl
      | succ k => rw [hn] at hrep; simp [List.replicate] at hrep
    omega

theorem number_ne_nil (v : Dbl) : number v ≠ [] := by
  cases v with
  | nan => simp [number]
  | fin q =>
    simp only [number]
    by_cases h : q.num = 0
    · simp [h]
    · simp only [h, if_false]
      intro hnil
      rw [List.append_eq_nil] at hnil
      exact layoutG_ne_nil _ _ hnil.2

theorem normalizeNumber_ne_nil (s : QString) (h : s ≠ []) : normalizeNumber s ≠ [] := by
  unfold normalizeNumber
  by_cases hc : s.contains '.' = true
  · simp only [hc, Bool.not_true, Bool.false_eq_true, if_false]
    split_ifs with h1 <;> simp_all
  · simp [hc, h]

/-- C9: `equals` with a pending operator.  With `rhs` the parsed `entry_` when `entry_`
is not empty and the accumulator otherwise, the new accumulator is the old one
combined with `rhs` by the pending operator (left unchanged by a symbol outside the
four operators), the display is the old `expr_`, the normalised text of the right-hand
side, ` = ` and the normalised text of the new accumulator, `pendingOp_` and `expr_`
are empty, `entry_` is the normalised text of the new accumulator and
`clearOnNextDigit_` is set. -/
theorem equals_with_pending (s : State) (h : s.pendingOp_ ≠ []) :
    (s.pendingOp_ = ['+'] → (equals s).total =
        Dbl.add s.total (if s.entry_ = [] then s.total else toDoubleOrZero s.entry_)) ∧
    (s.pendingOp_ = ['-'] → (equals s).total =
        Dbl.sub s.total (if s.entry_ = [] then s.total else toDoubleOrZero s.entry_)) ∧
    (s.pendingOp_ = ['*'] → (equals s).total =
        Dbl.mul s.total (if s.entry_ = [] then s.total else toDoubleOrZero s.entry_)) ∧
    (s.pendingOp_ = ['÷'] → (equals s).total =
        if Dbl.isZero (if s.entry_ = [] then s.total else toDoubleOrZero s.entry_) then Dbl.nan
        else Dbl.div s.total (if s.entry_ = [] then s.total else toDoubleOrZero s.entry_)) ∧
    (s.pendingOp_ ∉ [['+'], ['-'], ['*'], ['÷']] → (equals s).total = s.total) ∧
    (equals s).lineEdit_Output =
      s.expr_ ++ normalizeNumber (if s.entry_ = [] then number s.total else s.entry_)
        ++ [' ', '=', ' '] ++ normalizeNumber (number (equals s).total) ∧
    (equals s).pendingOp_ = [] ∧
    (equals s).expr_ = [] ∧
    (equals s).entry_ = normalizeNumber (number (equals s).total) ∧
    (equals s).clearOnNextDigit_ = true := by
  refine ⟨?_, ?_, ?_, ?_, ?_, equals_of_pendingOp_ne_nil s h⟩
  · intro hop
    simp [equals, applyPending, hop, ops_, List.lookup]
  · intro hop
    simp [equals, applyPending, hop, ops_, List.lookup]
  · intro hop
    simp [equals, applyPending, hop, ops_, List.lookup]
  · intro hop
    simp [equals, applyPending, hop, ops_, List.lookup]
  · intro hop
    simp only [List.mem_cons, List.mem_singleton, List.not_mem_nil, or_false, not_or] at hop
    obtain ⟨h1, h2, h3, h4⟩ := hop
    have hl : ops_.lookup s.pendingOp_ = none := by
      have e1 : (s.pendingOp_ == ['+']) = false := by simpa using h1
      have e2 : (s.pendingOp_ == ['-']) = false := by simpa using h2
      have e3 : (s.pendingOp_ == ['*']) = false := by simpa using h3
      have e4 : (s.pendingOp_ == ['÷']) = false := by simpa using h4
      simp [ops_, List.lookup, e1, e2, e3, e4]
    simp [equals, applyPending, h, hl]

/-- Witness for `equals_with_pending`, at the state reached by `8`, `*`, `4`: the
pending operator is `*`, the accumulator becomes the product and the display becomes
`8 * 4 = 32`. -/
theorem equals_with_pending_witness :
    (run [.digit 8, .Multiply, .digit 4] init).pendingOp_ ≠ [] ∧
    (run [.digit 8, .Multiply, .digit 4] init).pendingOp_ = ['*'] ∧
    (equals (run [.digit 8, .Multiply, .digit 4] init)).total =
      Dbl.mul (run [.digit 8, .Multiply, .digit 4] init).total
        (if (run [.digit 8, .Multiply, .digit 4] init).entry_ = []
          then (run [.digit 8, .Multiply, .digit 4] init).total
          else toDoubleOrZero (run [.digit 8, .Multiply, .digit 4] init).entry_) ∧
    (equals (run [.digit 8, .Multiply, .digit 4] init)).lineEdit_Output =
      (run [.digit 8, .Multiply, .digit 4] init).expr_ ++
        normalizeNumber (if (run [.digit 8, .Multiply, .digit 4] init).entry_ = []
          then number (run [.digit 8, .Multiply, .digit 4] init).total
          else (run [.digit 8, .Multiply, .digit 4] init).entry_)
        ++ [' ', '=', ' '] ++
        normalizeNumber (number (equals (run [.digit 8, .Multiply, .digit 4] init)).total) ∧
    (equals (run [.digit 8, .Multiply, .digit 4] init)).total = Dbl.fin 32 ∧
    (equals (run [.digit 8, .Multiply, .digit 4] init)).lineEdit_Output = "8 * 4 = 32".toList :=
  ⟨by decide, by decide,
   (equals_with_pending (run [.digit 8, .Multiply, .digit 4] init) (by decide)).2.2.1 (by decide),
   (equals_with_pending (run [.digit 8, .Multiply, .digit 4] init) (by decide)).2.2.2.2.2.1,
   by decide, by decide⟩

/-- C4: division by zero.  The clicks `5`, `÷`, `0`, `=` leave not-a-number in the
accumulator and the display `expr_ + "0" + " = " + "nan"`; `clearAll` then gives the
zero state; and for every accumulator `a`, applying the pending operator `÷` to the
right-hand side `0` gives not-a-number. -/
theorem division_by_zero_is_nan (a : Dbl) (s : State) :
    (run [.digit 5, .Divide, .digit 0, .Equals] init).total = Dbl.nan ∧
    (run [.digit 5, .Divide, .digit 0, .Equals] init).lineEdit_Output =
      (run [.digit 5, .Divide, .digit 0] init).expr_ ++ ['0'] ++ [' ', '=', ' ']
        ++ number Dbl.nan ∧
    (run [.digit 5, .Divide, .digit 0, .Equals] init).lineEdit_Output = "5 ÷ 0 = nan".toList ∧
    clearAll (run [.digit 5, .Divide, .digit 0, .Equals] init) = zeroState ∧
    (applyPending (Dbl.fin 0) { s with total := a, pendingOp_ := ['÷'] }).total = Dbl.nan := by
  refine ⟨by decide, by decide, by decide, rfl, ?_⟩
  simp [applyPending, ops_, List.lookup, Dbl.isZero]

/-- C2, counterexample: after `5`, `+`, `3`, `=` the result is `8`, and a further `=`
does not produce `11`: entry, accumulator and display still show `8`. -/
theorem repeated_equals_counterexample :
    (run [.digit 5, .Add, .digit 3, .Equals] init).entry_ = ['8'] ∧
    ¬ ((run [.digit 5, .Add, .digit 3, .Equals, .Equals] init).entry_ = ['1', '1']) ∧
    ¬ ((run [.digit 5, .Add, .digit 3, .Equals, .Equals] init).total = Dbl.fin 11) ∧
    ¬ ((run [.digit 5, .Add, .digit 3, .Equals, .Equals] init).lineEdit_Output = ['1', '1']) := by
  decide

/-- C2, amended: `equals` clears the pending operator, so a second consecutive `equals`
repeats nothing.  After a completed `equals` a further `equals` leaves `total`,
`pendingOp_`, `expr_`, `entry_` and `clearOnNextDigit_` as they are and shows
`entry_`; the clicks `5`, `+`, `3`, `=` give the result `8` and one more `=` leaves
the result `8`. -/
theorem second_equals_only_refreshes (s : State) (h : s.pendingOp_ ≠ []) :
    equals (equals s) = { equals s with lineEdit_Output := (equals s).entry_ } ∧
    (run [.digit 5, .Add, .digit 3, .Equals] init).total = Dbl.fin 8 ∧
    (run [.digit 5, .Add, .digit 3, .Equals] init).entry_ = ['8'] ∧
    (run [.digit 5, .Add, .digit 3, .Equals] init).lineEdit_Output = "5 + 3 = 8".toList ∧
    (run [.digit 5, .Add, .digit 3, .Equals, .Equals] init).total = Dbl.fin 8 ∧
    (run [.digit 5, .Add, .digit 3, .Equals, .Equals] init).entry_ = ['8'] ∧
    (run [.digit 5, .Add, .digit 3, .Equals, .Equals] init).lineEdit_Output = ['8'] := by
  refine ⟨?_, by decide, by decide, by decide, by decide, by decide, by decide⟩
  obtain ⟨-, hp, hx, he, -⟩ := equals_of_pendingOp_ne_nil s h
  have hne : (equals s).entry_ ≠ [] := by
    rw [he]
    exact normalizeNumber_ne_nil _ (number_ne_nil _)
  rw [equals_of_pendingOp_nil (equals s) hp]
  simp [hx, hne]

/-- Witness for `second_equals_only_refreshes`, at the state reached by `5`, `+`, `3`. -/
theorem second_equals_only_refreshes_witness :
    (run [.digit 5, .Add, .digit 3] init).pendingOp_ ≠ [] ∧
    equals (equals (run [.digit 5, .Add, .digit 3] init)) =
      { equals (run [.digit 5, .Add, .digit 3] init) with
          lineEdit_Output := (equals (run [.digit 5, .Add, .digit 3] init)).entry_ } :=
  ⟨by decide, (second_equals_only_refreshes (run [.digit 5, .Add, .digit 3] init) (by decide)).1⟩

/-! ## Backspace -/

theorem backspace_entry (s : State) :
    (backspace s).entry_ =
      if s.clearOnNextDigit_ = true then ['0']
      else if s.entry_.length ≤ 1 then ['0'] else s.entry_.chop 1 := by
  unfold backspace
  split_ifs <;> simp_all [refreshDisplay]

theorem backspace_flag (s : State) : (backspace s).clearOnNextDigit_ = false := by
  unfold backspace
  split_ifs <;> simp_all [refreshDisplay]

theorem QString.length_chop (s : QString) (n : Nat) : (s.chop n).length = s.length - n := by
  simp [QString.chop]

/-- Once `entry_` is `0` with the flag clear, any number of `backspace` calls keeps it. -/
theorem backspace_iterate_of_zero (k : Nat) (s : State) (he : s.entry_ = ['0'])
    (hf : s.clearOnNextDigit_ = false) : (backspace^[k] s).entry_ = ['0'] := by
  induction k generalizing s with
  | zero => simpa using he
  | succ k ih =>
    rw [Function.iterate_succ_apply]
    apply ih
    · rw [backspace_entry]; simp [hf, he]
    · exact backspace_flag s

/-- With the flag clear, `n + 1` calls of `backspace` or more reduce an `entry_` of at
most `n + 1` characters to `0`. -/
theorem backspace_iterate_of_length_le (n : Nat) (s : State) (hf : s.clearOnNextDigit_ = false)
    (hl : s.entry_.length ≤ n + 1) (k : Nat) (hk : n + 1 ≤ k) :
    (backspace^[k] s).entry_ = ['0'] := by
  induction n generalizing s k with
  | zero =>
    obtain ⟨k, rfl⟩ : ∃ j, k = j + 1 := ⟨k - 1, by omega⟩
    rw [Function.iterate_succ_apply]
    apply backspace_iterate_of_zero
    · rw [backspace_entry]; simp [hf, hl]
    · exact backspace_flag s
  | succ n ih =>
    obtain ⟨k, rfl⟩ : ∃ j, k = j + 1 := ⟨k - 1, by omega⟩
    rw [Function.iterate_succ_apply]
    by_cases h1 : s.entry_.length ≤ 1
    · apply backspace_iterate_of_zero
      · rw [backspace_entry]; simp [hf, h1]
      · exact backspace_flag s
    · apply ih
      · exact backspace_flag s
      · rw [backspace_entry]
        simp only [hf, Bool.false_eq_true, if_false, h1, QString.length_chop]
        omega
      · omega

/-- C7: `backspace` never leaves `entry_` empty; `max 1 (length of entry_)` or more
consecutive calls leave `entry_` equal to `0`; on an `entry_` equal to `0` with the
flag clear it changes no field of the engine and refreshes the display to
`expr_ + "0"`, so a state that already shows `expr_ + "0"` is left as it is.  On the
entry `5`, one call gives `0` and a second call keeps `0`. -/
theorem backspace_stops_at_zero (s : State) (k : Nat) (hk : max 1 s.entry_.length ≤ k) :
    (backspace s).entry_ ≠ [] ∧
    (backspace^[k] s).entry_ = ['0'] ∧
    backspace { s with entry_ := ['0'], clearOnNextDigit_ := false } =
      { s with entry_ := ['0'], clearOnNextDigit_ := false, lineEdit_Output := s.expr_ ++ ['0'] } ∧
    backspace { s with entry_ := ['0'], clearOnNextDigit_ := false,
                       lineEdit_Output := s.expr_ ++ ['0'] } =
      { s with entry_ := ['0'], clearOnNextDigit_ := false, lineEdit_Output := s.expr_ ++ ['0'] } ∧
    (run [.digit 5] init).entry_ = ['5'] ∧
    (backspace (run [.digit 5] init)).entry_ = ['0'] ∧
    (backspace (backspace (run [.digit 5] init))).entry_ = ['0'] := by
  refine ⟨?_, ?_, ?_, ?_, by decide, by decide, by decide⟩
  · rw [backspace_entry]
    split_ifs with h1 h2
    · simp
    · simp
    · intro h
      have hlen := congrArg List.length h
      rw [QString.length_chop] at hlen
      simp at hlen
      omega
  · by_cases hf : s.clearOnNextDigit_ = true
    · obtain ⟨k, rfl⟩ : ∃ j, k = j + 1 := ⟨k - 1, by omega⟩
      rw [Function.iterate_succ_apply]
      apply backspace_iterate_of_zero
      · rw [backspace_entry]; simp [hf]
      · exact backspace_flag s
    · simp only [Bool.not_eq_true] at hf
      exact backspace_iterate_of_length_le (max 1 s.entry_.length - 1) s hf (by omega) k (by omega)
  · simp [backspace, refreshDisplay]
  · simp [backspace, refreshDisplay]

/-- Witness for `backspace_stops_at_zero`: the entry `120` and three calls. -/
theorem backspace_stops_at_zero_witness :
    max 1 (run [.digit 1, .digit 2, .digit 0] init).entry_.length ≤ 3 ∧
    (backspace^[3] (run [.digit 1, .digit 2, .digit 0] init)).entry_ = ['0'] :=
  ⟨by decide, (backspace_stops_at_zero (run [.digit 1, .digit 2, .digit 0] init) 3 (by decide)).2.1⟩

/-! ## `normalizeNumber` -/

/-- With enough fuel the bounded loop removes exactly the trailing `0` characters. -/
theorem chopZerosLoop_eq_rdropWhile (fuel : Nat) (s : QString) (h : s.length ≤ fuel) :
    chopZerosLoop fuel s = s.rdropWhile (fun c => c == '0') := by
  induction fuel generalizing s with
  | zero =>
    have : s = [] := List.length_eq_zero.mp (by omega)
    subst this
    simp [chopZerosLoop]
  | succ fuel ih =>
    rcases List.eq_nil_or_concat s with rfl | ⟨t, c, rfl⟩
    · simp [chopZerosLoop]
    · rw [List.concat_eq_append] at h ⊢
      by_cases hc : c = '0'
      · subst hc
        rw [List.rdropWhile_concat_pos (fun c => c == '0') t '0' (by simp)]
        simp only [chopZerosLoop, QString.endsWith_append_singleton, beq_self_eq_true, if_true,
          QString.chop_append_single]
        apply ih
        simp at h
        omega
      · rw [List.rdropWhile_concat_neg (fun c => c == '0') t c (by simpa using hc)]
        simp [chopZerosLoop, hc]

/-- The loop of `normalizeNumber` removes exactly the trailing `0` characters. -/
theorem chopZeros_eq_rdropWhile (s : QString) :
    chopZeros s = s.rdropWhile (fun c => c == '0') :=
  chopZerosLoop_eq_rdropWhile s.length s (le_refl _)

/-- The loop of `normalizeNumber` ends with its exit condition true: `s.length`
iterations are enough. -/
theorem chopZeros_not_endsWith (s : QString) : (chopZeros s).endsWith '0' = false := by
  rw [chopZeros_eq_rdropWhile]
  by_cases hnil : s.rdropWhile (fun c => c == '0') = []
  · simp [hnil]
  · have hlast := List.rdropWhile_last_not (fun c => c == '0') s hnil
    simp only [QString.endsWith, List.getLast?_eq_getLast _ hnil]
    simpa using hlast

theorem rdropWhile_append_dot (ip fp : QString) :
    (ip ++ '.' :: fp).rdropWhile (fun c => c == '0')
      = ip ++ '.' :: fp.rdropWhile (fun c => c == '0') := by
  induction fp using List.reverseRecOn with
  | nil =>
    exact List.rdropWhile_concat_neg (fun c => c == '0') ip '.' (by decide)
  | append_singleton f c ih =>
    have hassoc : ip ++ '.' :: (f ++ [c]) = (ip ++ '.' :: f) ++ [c] := by simp
    rw [hassoc]
    by_cases hc : (c == '0') = true
    · rw [List.rdropWhile_concat_pos (fun c => c == '0') _ c hc,
        List.rdropWhile_concat_pos (fun c => c == '0') _ c hc, ih]
    · rw [List.rdropWhile_concat_neg (fun c => c == '0') _ c hc,
        List.rdropWhile_concat_neg (fun c => c == '0') _ c hc]
      simp

theorem normalizeNumber_of_not_contains (s : QString) (h : s.contains '.' = false) :
    normalizeNumber s = s := by
  simp [normalizeNumber, h]

/-- C8: `normalizeNumber` on `<digits>.<digits>` (here `ip`, the point and the digits
`fp`; whatever stands before the point is kept as it is) removes the trailing `0`
characters of the fractional part, removes the `.` too when no fractional digit
remains, and gives `0` when nothing is left; a string without `.` is returned
unchanged. -/
theorem normalizeNumber_plain_decimal (ip fp s : QString)
    (hfp : ∀ c ∈ fp, c.isDigit = true) (hs : '.' ∉ s) :
    normalizeNumber (ip ++ '.' :: fp) =
      (if fp.rdropWhile (fun c => c == '0') ≠ [] then ip ++ '.' :: fp.rdropWhile (fun c => c == '0')
       else if ip = [] then ['0'] else ip) ∧
    normalizeNumber s = s ∧
    normalizeNumber "12.3400".toList = "12.34".toList ∧
    normalizeNumber "5.0".toList = "5".toList ∧
    normalizeNumber "5.".toList = "5".toList ∧
    normalizeNumber "100".toList = "100".toList := by
  refine ⟨?_, ?_, by decide, by decide, by decide, by decide⟩
  · have hcont : (ip ++ '.' :: fp).contains '.' = true := by simp [QString.contains]
    simp only [normalizeNumber, hcont, Bool.not_true, Bool.false_eq_true, if_false,
      chopZeros_eq_rdropWhile, rdropWhile_append_dot]
    by_cases hf : fp.rdropWhile (fun c => c == '0') = []
    · simp only [hf, ne_eq, not_true_eq_false, if_false]
      have h1 : QString.endsWith (ip ++ ['.']) '.' = true := by simp
      simp only [h1, if_true, QString.chop_append_single]
      by_cases hi : ip = [] <;> simp [hi]
    · obtain ⟨g, c, hg⟩ : ∃ g c, fp.rdropWhile (fun c => c == '0') = g ++ [c] := by
        rcases List.eq_nil_or_concat (fp.rdropWhile (fun c => c == '0')) with h | ⟨g, c, h⟩
        · exact absurd h hf
        · exact ⟨g, c, by rw [h, List.concat_eq_append]⟩
      have hcmem : c ∈ fp := by
        have hpre : fp.rdropWhile (fun c => c == '0') <+: fp := List.rdropWhile_prefix _ _
        apply hpre.subset
        rw [hg]
        simp
      have hcd : c ≠ '.' := by
        intro h
        have := hfp c hcmem
        rw [h] at this
        exact absurd this (by decide)
      have hend : QString.endsWith (ip ++ '.' :: (g ++ [c])) '.' = false := by
        have hassoc : ip ++ '.' :: (g ++ [c]) = (ip ++ '.' :: g) ++ [c] := by simp
        rw [hassoc, QString.endsWith_append_singleton]
        simpa using hcd
      simp only [hf, ne_eq, not_false_eq_true, if_true]
      rw [hg, hend]
      simp
  · apply normalizeNumber_of_not_contains
    simp only [QString.contains, List.any_eq_false, beq_iff_eq]
    intro x hx hxe
    subst hxe
    exact hs hx

/-- Witness for `normalizeNumber_plain_decimal`: the string `12.3400` and the string
`100`. -/
theorem normalizeNumber_plain_decimal_witness :
    (∀ c ∈ ['3', '4', '0', '0'], c.isDigit = true) ∧ '.' ∉ ['1', '0', '0'] ∧
    normalizeNumber (['1', '2'] ++ '.' :: ['3', '4', '0', '0']) =
      (if ['3', '4', '0', '0'].rdropWhile (fun c => c == '0') ≠ []
       then ['1', '2'] ++ '.' :: ['3', '4', '0', '0'].rdropWhile (fun c => c == '0')
       else if ['1', '2'] = [] then ['0'] else ['1', '2']) ∧
    normalizeNumber ['1', '0', '0'] = ['1', '0', '0'] :=
  ⟨by decide, by decide,
   (normalizeNumber_plain_decimal ['1', '2'] ['3', '4', '0', '0'] ['1', '0', '0']
      (by decide) (by decide)).1,
   (normalizeNumber_plain_decimal ['1', '2'] ['3', '4', '0', '0'] ['1', '0', '0']
      (by decide) (by decide)).2.1⟩

/-! ## Typing digits and points -/

theorem run_append (a b : List Button) (s : State) : run (a ++ b) s = run b (run a s) := by
  simp [run]

theorem run_singleton (b : Button) (s : State) : run [b] s = click b s := rfl

theorem intText_digit (d : Fin 10) : intText (d.val : Int) = [Nat.digitChar d.val] := by
  revert d
  decide

theorem digitChar_ne_dot (d : Fin 10) : Nat.digitChar d.val ≠ '.' := by
  revert d
  decide

theorem dropLaterDots_append_of_ne (t : QString) (c : Char) (hc : c ≠ '.') :
    dropLaterDots (t ++ [c]) = dropLaterDots t ++ [c] := by
  induction t with
  | nil => simp [dropLaterDots, hc]
  | cons x t ih =>
    by_cases hx : x = '.'
    · simp [dropLaterDots, hx, hc]
    · simp [dropLaterDots, hx, ih]

theorem mem_dropLaterDots (t : QString) : '.' ∈ dropLaterDots t ↔ '.' ∈ t := by
  induction t with
  | nil => simp [dropLaterDots]
  | cons x t ih =>
    by_cases hx : x = '.'
    · simp [dropLaterDots, hx]
    · have hx' : ¬ '.' = x := fun h => hx h.symm
      simp [dropLaterDots, hx, hx', ih]

theorem dropLaterDots_append_dot (t : QString) :
    dropLaterDots (t ++ ['.']) = if '.' ∈ t then dropLaterDots t else dropLaterDots t ++ ['.'] := by
  induction t with
  | nil => simp [dropLaterDots]
  | cons x t ih =>
    by_cases hx : x = '.'
    · simp [dropLaterDots, hx]
    · have hx' : ¬ '.' = x := fun h => hx h.symm
      have hcons : dropLaterDots (x :: t ++ ['.']) = x :: dropLaterDots (t ++ ['.']) := by
        simp [dropLaterDots, hx]
      rw [hcons, ih]
      by_cases hm : '.' ∈ t
      · simp [hm, dropLaterDots, hx]
      · simp [hm, dropLaterDots, hx, hx']

theorem dropLaterDots_of_count_le_one (t : QString) (h : t.count '.' ≤ 1) :
    dropLaterDots t = t := by
  induction t with
  | nil => rfl
  | cons x t ih =>
    by_cases hx : x = '.'
    · subst hx
      simp only [List.count_cons_self] at h
      have h0 : t.count '.' = 0 := by omega
      have hnot : '.' ∉ t := List.count_eq_zero.mp h0
      simp only [dropLaterDots, if_true, List.cons.injEq, true_and]
      rw [List.filter_eq_self]
      intro a ha
      have : a ≠ '.' := fun h => hnot (h ▸ ha)
      simpa using this
    · have hc : (x :: t).count '.' = t.count '.' := by
        rw [List.count_cons]
        simp [hx]
      rw [hc] at h
      simp [dropLaterDots, hx, ih h]

theorem collapseLeadingZeros_eq_zero_iff (u : QString) :
    collapseLeadingZeros u = ['0'] ↔ ∀ x ∈ u, x = '0' := by
  have hhead := List.head?_dropWhile_not (fun c => c == '0') u
  constructor
  · intro h
    have hnil : u.dropWhile (fun c => c == '0') = [] := by
      unfold collapseLeadingZeros at h
      cases hr : u.dropWhile (fun c => c == '0') with
      | nil => rfl
      | cons y r =>
        rw [hr] at h hhead
        simp only [List.head?_cons] at hhead
        simp only [reduceCtorEq, List.head?_cons, Option.some.injEq, false_or] at h
        split_ifs at h with hy
        · simp at h
        · simp only [List.cons.injEq] at h
          rw [h.1] at hhead
          simp at hhead
    rw [List.dropWhile_eq_nil_iff] at hnil
    simpa using hnil
  · intro h
    have hnil : u.dropWhile (fun c => c == '0') = [] := by
      rw [List.dropWhile_eq_nil_iff]
      simpa using h
    simp [collapseLeadingZeros, hnil]

theorem collapseLeadingZeros_append_of_zeros (u : QString) (c : Char)
    (h : ∀ x ∈ u, x = '0') :
    collapseLeadingZeros (u ++ [c]) = if c = '.' then ['0', '.'] else [c] := by
  have hdrop : (u ++ [c]).dropWhile (fun c => c == '0') = [c].dropWhile (fun c => c == '0') :=
    List.dropWhile_append_of_pos (by simpa using h)
  unfold collapseLeadingZeros
  rw [hdrop]
  by_cases h0 : c = '0'
  · subst h0
    simp
  · by_cases hd : c = '.'
    · subst hd
      simp
    · simp [List.dropWhile_cons, h0, hd]

theorem collapseLeadingZeros_append_of_not_zeros (u : QString) (c : Char)
    (h : ¬ ∀ x ∈ u, x = '0') :
    collapseLeadingZeros (u ++ [c]) = collapseLeadingZeros u ++ [c] := by
  have hne : u.dropWhile (fun c => c == '0') ≠ [] := by
    intro hnil
    rw [List.dropWhile_eq_nil_iff] at hnil
    exact h (by simpa using hnil)
  have hdrop : (u ++ [c]).dropWhile (fun c => c == '0')
      = u.dropWhile (fun c => c == '0') ++ [c] := by
    rw [List.dropWhile_append]
    simp [hne]
  unfold collapseLeadingZeros
  rw [hdrop]
  cases hr : u.dropWhile (fun c => c == '0') with
  | nil => exact absurd hr hne
  | cons y r =>
    simp only [List.cons_append, reduceCtorEq, List.head?_cons, Option.some.injEq, false_or]
    split_ifs <;> simp

theorem mem_collapseLeadingZeros (u : QString) : '.' ∈ collapseLeadingZeros u ↔ '.' ∈ u := by
  have hsplit := List.takeWhile_append_dropWhile (fun c => c == '0') u
  have htake : '.' ∉ u.takeWhile (fun c => c == '0') := by
    intro hmem
    have := List.mem_takeWhile_imp hmem
    simp at this
  have hu : '.' ∈ u ↔ '.' ∈ u.dropWhile (fun c => c == '0') := by
    constructor
    · intro h
      rw [← hsplit] at h
      rcases List.mem_append.mp h with h1 | h2
      · exact absurd h1 htake
      · exact h2
    · intro h
      rw [← hsplit]
      exact List.mem_append_right _ h
  rw [hu]
  simp only [collapseLeadingZeros]
  split_ifs <;> simp

theorem QString.contains_iff_mem (s : QString) (c : Char) : s.contains c = true ↔ c ∈ s := by
  simp [QString.contains]

/-- The state after typing digits and points from the constructor state: only `entry_`
and the display, which shows `entry_`, differ from the zero state. -/
theorem run_typing (ks : List EntryKey) :
    run (ks.map EntryKey.button) init =
      { zeroState with
          entry_ := collapseLeadingZeros (dropLaterDots (typedText ks)),
          lineEdit_Output := collapseLeadingZeros (dropLaterDots (typedText ks)) } := by
  induction ks using List.reverseRecOn with
  | nil => rfl
  | append_singleton ks k ih =>
    rw [List.map_append, run_append, ih, List.map_singleton, run_singleton]
    have htyped : typedText (ks ++ [k]) = typedText ks ++ [k.char] := by simp [typedText]
    rw [htyped]
    cases k with
    | digit d =>
      have hne := digitChar_ne_dot d
      simp only [EntryKey.char, EntryKey.button, click]
      rw [dropLaterDots_append_of_ne _ _ hne]
      by_cases hz : ∀ x ∈ dropLaterDots (typedText ks), x = '0'
      · rw [collapseLeadingZeros_append_of_zeros _ _ hz]
        have hE := (collapseLeadingZeros_eq_zero_iff _).mpr hz
        simp [insertDigit, zeroState, refreshDisplay, hE, intText_digit, hne]
      · rw [collapseLeadingZeros_append_of_not_zeros _ _ hz]
        have hE : collapseLeadingZeros (dropLaterDots (typedText ks)) ≠ ['0'] :=
          fun h => hz ((collapseLeadingZeros_eq_zero_iff _).mp h)
        simp [insertDigit, zeroState, refreshDisplay, hE, intText_digit]
    | dot =>
      simp only [EntryKey.char, EntryKey.button, click]
      rw [dropLaterDots_append_dot]
      by_cases hm : '.' ∈ typedText ks
      · have hc : (collapseLeadingZeros (dropLaterDots (typedText ks))).contains '.' = true := by
          rw [QString.contains_iff_mem, mem_collapseLeadingZeros, mem_dropLaterDots]
          exact hm
        have hne : collapseLeadingZeros (dropLaterDots (typedText ks)) ≠ [] := by
          intro h
          rw [QString.contains_iff_mem, h] at hc
          simp at hc
        simp [insertDot, zeroState, refreshDisplay, hc, hm, hne]
      · have hc : (collapseLeadingZeros (dropLaterDots (typedText ks))).contains '.' = false := by
          rw [← Bool.not_eq_true, QString.contains_iff_mem, mem_collapseLeadingZeros,
            mem_dropLaterDots]
          exact hm
        simp only [hm, if_false]
        by_cases hz : ∀ x ∈ dropLaterDots (typedText ks), x = '0'
        · rw [collapseLeadingZeros_append_of_zeros _ _ hz]
          have hE := (collapseLeadingZeros_eq_zero_iff _).mpr hz
          simp [insertDot, zeroState, refreshDisplay, hE, QString.contains]
        · rw [collapseLeadingZeros_append_of_not_zeros _ _ hz]
          simp [insertDot, zeroState, refreshDisplay, hc]

/-- C6, counterexample: typing `1`, `.`, `.`, `5` shows `1.5`, while the literal typed
sequence with leading zeros collapsed is `1..5`. -/
theorem typed_display_counterexample :
    (run ([.digit 1, .dot, .dot, .digit 5].map EntryKey.button) init).lineEdit_Output
      = "1.5".toList ∧
    collapseLeadingZeros (typedText [.digit 1, .dot, .dot, .digit 5]) = "1..5".toList ∧
    ¬ ((run ([.digit 1, .dot, .dot, .digit 5].map EntryKey.button) init).lineEdit_Output
      = collapseLeadingZeros (typedText [.digit 1, .dot, .dot, .digit 5])) := by
  decide

/-- C6, amended: after any sequence of digit and point keys typed from the zero state,
the display is the literal sequence of typed characters with the decimal points after
the first one dropped and the leading zeros collapsed; with at most one point typed,
nothing is dropped.  Typing `1`, `2`, `.`, `5` shows `12.5`. -/
theorem typed_display (ks : List EntryKey) :
    (run (ks.map EntryKey.button) init).lineEdit_Output
      = collapseLeadingZeros (dropLaterDots (typedText ks)) ∧
    ((typedText ks).count '.' ≤ 1 →
      (run (ks.map EntryKey.button) init).lineEdit_Output
        = collapseLeadingZeros (typedText ks)) ∧
    (run ([.digit 1, .digit 2, .dot, .digit 5].map EntryKey.button) init).lineEdit_Output
      = "12.5".toList := by
  refine ⟨?_, ?_, by decide⟩
  · rw [run_typing]
  · intro h
    rw [run_typing, dropLaterDots_of_count_le_one _ h]

/-- Witness for `typed_display`: the keys `0`, `0`, `.`, `5`, with one point. -/
theorem typed_display_witness :
    (typedText [.digit 0, .digit 0, .dot, .digit 5]).count '.' ≤ 1 ∧
    (run ([.digit 0, .digit 0, .dot, .digit 5].map EntryKey.button) init).lineEdit_Output
      = collapseLeadingZeros (typedText [.digit 0, .digit 0, .dot, .digit 5]) ∧
    collapseLeadingZeros (typedText [.digit 0, .digit 0, .dot, .digit 5]) = "0.5".toList :=
  ⟨by decide, (typed_display [.digit 0, .digit 0, .dot, .digit 5]).2.1 (by decide), by decide⟩

/-! ## Decimal text of natural numbers -/

/-- With enough fuel `Nat.toDigitsCore` puts the decimal text in front of its
accumulator. -/
theorem toDigitsCore_eq_natText (n : Nat) :
    ∀ fuel ds, n < fuel → Nat.toDigitsCore 10 fuel n ds = natText n ++ ds := by
  induction n using Nat.strong_induction_on with
  | _ n ih =>
    intro fuel ds hf
    obtain ⟨f, rfl⟩ : ∃ f, fuel = f + 1 := ⟨fuel - 1, by omega⟩
    by_cases h0 : n / 10 = 0
    · simp [Nat.toDigitsCore, natText, Nat.toDigits, h0]
    · have hlt : n / 10 < n := Nat.div_lt_self (by omega) (by decide)
      have h1 : Nat.toDigitsCore 10 (f + 1) n ds
          = Nat.toDigitsCore 10 f (n / 10) (Nat.digitChar (n % 10) :: ds) := by
        simp [Nat.toDigitsCore, h0]
      have h2 : natText n = Nat.toDigitsCore 10 n (n / 10) [Nat.digitChar (n % 10)] := by
        simp [natText, Nat.toDigits, Nat.toDigitsCore, h0]
      rw [h1, h2, ih (n / 10) hlt f _ (by omega), ih (n / 10) hlt n _ hlt]
      simp

theorem natText_of_lt_ten (n : Nat) (h : n < 10) : natText n = [Nat.digitChar n] := by
  have h0 : n / 10 = 0 := Nat.div_eq_of_lt h
  simp [natText, Nat.toDigits, Nat.toDigitsCore, h0, Nat.mod_eq_of_lt h]

theorem natText_of_ten_le (n : Nat) (h : 10 ≤ n) :
    natText n = natText (n / 10) ++ [Nat.digitChar (n % 10)] := by
  have h0 : n / 10 ≠ 0 := by
    have := Nat.div_pos h (by decide : 0 < 10)
    omega
  have hlt : n / 10 < n := Nat.div_lt_self (by omega) (by decide)
  have h2 : natText n = Nat.toDigitsCore 10 n (n / 10) [Nat.digitChar (n % 10)] := by
    simp [natText, Nat.toDigits, Nat.toDigitsCore, h0]
  rw [h2, toDigitsCore_eq_natText (n / 10) n _ hlt]

theorem natText_ne_nil (n : Nat) : natText n ≠ [] := by
  by_cases h : n < 10
  · simp [natText_of_lt_ten n h]
  · simp [natText_of_ten_le n (by omega)]

theorem digitChar_isDigit (m : Nat) (h : m < 10) : (Nat.digitChar m).isDigit = true := by
  interval_cases m <;> decide

theorem digitChar_toNat (m : Nat) (h : m < 10) : (Nat.digitChar m).toNat - 48 = m := by
  interval_cases m <;> decide

theorem digitChar_ne_zero (m : Nat) (h1 : 1 ≤ m) (h : m < 10) : Nat.digitChar m ≠ '0' := by
  interval_cases m <;> decide

theorem natText_ne_zero (n : Nat) (h : 1 ≤ n) : natText n ≠ ['0'] := by
  by_cases h10 : n < 10
  · simp [natText_of_lt_ten n h10, digitChar_ne_zero n h h10]
  · rw [natText_of_ten_le n (by omega)]
    intro he
    have hl := congrArg List.length he
    have hpos : 0 < (natText (n / 10)).length := List.length_pos.mpr (natText_ne_nil _)
    simp only [List.length_append, List.length_singleton, List.length_cons, List.length_nil] at hl
    omega

theorem natText_all_isDigit (n : Nat) : ∀ c ∈ natText n, c.isDigit = true := by
  induction n using Nat.strong_induction_on with
  | _ n ih =>
    by_cases h : n < 10
    · simp [natText_of_lt_ten n h, digitChar_isDigit n h]
    · rw [natText_of_ten_le n (by omega)]
      intro c hc
      rcases List.mem_append.mp hc with h1 | h1
      · exact ih (n / 10) (Nat.div_lt_self (by omega) (by decide)) c h1
      · simp only [List.mem_singleton] at h1
        rw [h1]
        exact digitChar_isDigit _ (Nat.mod_lt _ (by decide))

theorem natOfDigits_append_singleton (l : QString) (c : Char) :
    natOfDigits (l ++ [c]) = 10 * natOfDigits l + (c.toNat - 48) := by
  simp [natOfDigits]

theorem natOfDigits_natText (n : Nat) : natOfDigits (natText n) = n := by
  induction n using Nat.strong_induction_on with
  | _ n ih =>
    by_cases h : n < 10
    · rw [natText_of_lt_ten n h]
      simp [natOfDigits, digitChar_toNat n h]
    · rw [natText_of_ten_le n (by omega), natOfDigits_append_singleton,
        ih (n / 10) (Nat.div_lt_self (by omega) (by decide)),
        digitChar_toNat _ (Nat.mod_lt _ (by decide))]
      omega

theorem natText_lt_pow (n : Nat) : n < 10 ^ (natText n).length := by
  induction n using Nat.strong_induction_on with
  | _ n ih =>
    by_cases h : n < 10
    · simpa [natText_of_lt_ten n h] using h
    · rw [natText_of_ten_le n (by omega)]
      have := ih (n / 10) (Nat.div_lt_self (by omega) (by decide))
      simp only [List.length_append, List.length_singleton, pow_succ]
      omega

theorem natText_pow_le (n : Nat) (h1 : 1 ≤ n) : 10 ^ ((natText n).length - 1) ≤ n := by
  induction n using Nat.strong_induction_on with
  | _ n ih =>
    by_cases h : n < 10
    · simpa [natText_of_lt_ten n h] using h1
    · rw [natText_of_ten_le n (by omega)]
      have hq : 1 ≤ n / 10 := Nat.div_pos (by omega) (by decide)
      have := ih (n / 10) (Nat.div_lt_self (by omega) (by decide)) hq
      have hpos : 0 < (natText (n / 10)).length := List.length_pos.mpr (natText_ne_nil _)
      obtain ⟨k, hk⟩ : ∃ k, (natText (n / 10)).length = k + 1 := ⟨_, (Nat.succ_pred_eq_of_pos hpos).symm⟩
      simp only [List.length_append, List.length_singleton, hk, Nat.add_sub_cancel] at this ⊢
      rw [pow_succ]
      omega

theorem natText_mul_pow (n : Nat) (h1 : 1 ≤ n) (k : Nat) :
    natText (n * 10 ^ k) = natText n ++ List.replicate k '0' := by
  induction k with
  | zero => simp
  | succ k ih =>
    have hpos : 1 ≤ n * 10 ^ k := Nat.mul_pos h1 (by positivity)
    have hmul : n * 10 ^ (k + 1) = n * 10 ^ k * 10 := by rw [pow_succ, Nat.mul_assoc]
    rw [hmul, natText_of_ten_le _ (by omega), Nat.mul_div_cancel _ (by decide : 0 < 10),
      Nat.mul_mod_left, ih, List.replicate_succ']
    simp [Nat.digitChar]

/-! ## `toDouble` and `number` on integers -/

theorem splitSign_of_isDigit (c : Char) (t : QString) (h : c.isDigit = true) :
    splitSign (c :: t) = (false, c :: t) := by
  have h1 : c ≠ '-' := by
    intro he
    rw [he] at h
    exact absurd h (by decide)
  have h2 : c ≠ '+' := by
    intro he
    rw [he] at h
    exact absurd h (by decide)
  unfold splitSign
  split
  · rename_i heq
    simp only [List.cons.injEq] at heq
    exact absurd heq.1 h1
  · rename_i heq
    simp only [List.cons.injEq] at heq
    exact absurd heq.1 h2
  · rfl

theorem span_of_all (p : Char → Bool) (ds : QString) (h : ∀ c ∈ ds, p c = true) :
    ds.span p = (ds, []) := by
  rw [List.span_eq_take_drop, List.takeWhile_eq_self_iff.mpr h, List.dropWhile_eq_nil_iff.mpr h]

/-- A non-empty string of digits converts to the natural number it denotes. -/
theorem toDouble_digits (ds : QString) (hne : ds ≠ []) (hd : ∀ c ∈ ds, c.isDigit = true) :
    toDouble ds = some (Dbl.ofInt (natOfDigits ds : Int)) := by
  obtain ⟨c, t, rfl⟩ : ∃ c t, ds = c :: t := List.exists_cons_of_ne_nil hne
  have hc : c.isDigit = true := hd c (by simp)
  have hnan : c :: t ≠ ['n', 'a', 'n'] := by
    intro he
    simp only [List.cons.injEq] at he
    rw [he.1] at hc
    exact absurd hc (by decide)
  have hexp : ∀ x ∈ c :: t, (x != 'e' && x != 'E') = true := by
    intro x hx
    have hxd := hd x hx
    have h1 : x ≠ 'e' := by
      intro he
      rw [he] at hxd
      exact absurd hxd (by decide)
    have h2 : x ≠ 'E' := by
      intro he
      rw [he] at hxd
      exact absurd hxd (by decide)
    simp [h1, h2]
  simp only [toDouble, hnan, if_false, splitSign_of_isDigit c t hc, span_of_all _ _ hexp,
    span_of_all _ _ hd, parseFraction, parseExponent]
  simp [ofDecimal, Dbl.ofInt, Rat.mkRat_one]

theorem toDouble_natText (n : Nat) : toDouble (natText n) = some (Dbl.ofInt (n : Int)) := by
  rw [toDouble_digits _ (natText_ne_nil n) (natText_all_isDigit n), natOfDigits_natText]

theorem toDoubleOrZero_natText (n : Nat) : toDoubleOrZero (natText n) = Dbl.ofInt (n : Int) := by
  simp [toDoubleOrZero, toDouble_natText]

theorem rdropWhile_append_replicate (l : QString) (k : Nat) :
    (l ++ List.replicate k '0').rdropWhile (fun c => c == '0')
      = l.rdropWhile (fun c => c == '0') := by
  induction k with
  | zero => simp
  | succ k ih =>
    rw [List.replicate_succ', ← List.append_assoc,
      List.rdropWhile_concat_pos (fun c => c == '0') _ '0' (by decide), ih]

theorem rdropWhile_length_le (l : QString) :
    (l.rdropWhile (fun c => c == '0')).length ≤ l.length :=
  (List.rdropWhile_prefix (fun c => c == '0') l).length_le

theorem rdropWhile_append_zeros (l : QString) :
    l.rdropWhile (fun c => c == '0')
      ++ List.replicate (l.length - (l.rdropWhile (fun c => c == '0')).length) '0' = l := by
  induction l using List.reverseRecOn with
  | nil => simp
  | append_singleton l c ih =>
    by_cases hc : (c == '0') = true
    · have hc0 : c = '0' := by simpa using hc
      subst hc0
      have hle := rdropWhile_length_le l
      rw [List.rdropWhile_concat_pos (fun c => c == '0') l '0' hc]
      have hlen : (l ++ ['0']).length - (l.rdropWhile (fun c => c == '0')).length
          = (l.length - (l.rdropWhile (fun c => c == '0')).length) + 1 := by
        simp only [List.length_append, List.length_singleton]
        omega
      rw [hlen, List.replicate_succ', ← List.append_assoc, ih]
    · rw [List.rdropWhile_concat_neg (fun c => c == '0') l c hc]
      simp

theorem layoutG_plain (ds : QString) (L : Nat) (h1 : 1 ≤ L) (h15 : L ≤ 15)
    (hlen : ds.length ≤ L) :
    layoutG ds (L : Int) = ds ++ List.replicate (L - ds.length) '0' := by
  have c1 : ¬ ((L : Int) ≤ -4 ∨ 15 < (L : Int)) := by omega
  have c2 : ¬ ((L : Int) ≤ 0) := by omega
  have c3 : ¬ (L < ds.length) := by omega
  simp only [layoutG, c1, c2, c3, if_false, Int.toNat_ofNat]

theorem sig15_int (n L : Nat) (h1 : 1 ≤ L) (h15 : L ≤ 15) :
    sig15 n 1 ((L : Int) - 1) = n * 10 ^ (15 - L) := by
  have hp : (0 : Int) ≤ 14 - ((L : Int) - 1) := by omega
  have ht : (14 - ((L : Int) - 1)).toNat = 15 - L := by omega
  simp only [sig15, hp, if_true, ht]
  omega

theorem decExp_int (n : Nat) (h1 : 1 ≤ n) :
    decExp n 1 = ((natText n).length : Int) - 1 := by
  simp [decExp, h1]

/-- An integer of magnitude below `10 ^ 15` is printed as its decimal text. -/
theorem number_ofInt (z : Int) (h : z.natAbs < 10 ^ 15) : number (Dbl.ofInt z) = intText z := by
  by_cases hz : z = 0
  · subst hz
    decide
  · have hn1 : 1 ≤ z.natAbs := Int.natAbs_pos.mpr hz
    have hLpos : 1 ≤ (natText z.natAbs).length := List.length_pos.mpr (natText_ne_nil _)
    have hL15 : (natText z.natAbs).length ≤ 15 := by
      have hlow := natText_pow_le z.natAbs hn1
      have hlt : 10 ^ ((natText z.natAbs).length - 1) < 10 ^ 15 := lt_of_le_of_lt hlow h
      have := (Nat.pow_lt_pow_iff_right (by decide : 1 < 10)).mp hlt
      omega
    have hs : z.natAbs * 10 ^ (15 - (natText z.natAbs).length) < 10 ^ 15 := by
      have hup := natText_lt_pow z.natAbs
      have hsplit : (10 : Nat) ^ 15
          = 10 ^ (natText z.natAbs).length * 10 ^ (15 - (natText z.natAbs).length) := by
        rw [← pow_add]
        congr 1
        omega
      rw [hsplit]
      exact Nat.mul_lt_mul_of_pos_right hup (by positivity)
    have hdecpt : ((natText z.natAbs).length : Int) - 1 + 1 + 0 = ((natText z.natAbs).length : Int) := by
      omega
    have hbody : layoutG
        ((natText (z.natAbs * 10 ^ (15 - (natText z.natAbs).length))).rdropWhile
          (fun c => c == '0'))
        ((natText z.natAbs).length : Int) = natText z.natAbs := by
      rw [natText_mul_pow _ hn1, rdropWhile_append_replicate,
        layoutG_plain _ _ hLpos hL15 (rdropWhile_length_le _), rdropWhile_append_zeros]
    simp only [number, Dbl.ofInt, Rat.intCast_num, Rat.intCast_den, hz, if_false,
      decExp_int _ hn1, sig15_int _ _ hLpos hL15, Nat.not_le.mpr hs, hdecpt, hbody, intText]
    by_cases hneg : z < 0 <;> simp [hneg]

theorem intText_not_contains_dot (z : Int) : (intText z).contains '.' = false := by
  have hnat : ∀ n : Nat, (natText n).contains '.' = false := by
    intro n
    simp only [QString.contains, List.any_eq_false, beq_iff_eq]
    intro x hx hxe
    have := natText_all_isDigit n x hx
    rw [hxe] at this
    exact absurd this (by decide)
  unfold intText
  split_ifs
  · have := hnat z.natAbs
    simp only [QString.contains, List.any_cons, Bool.or_eq_false_iff] at this ⊢
    exact ⟨by decide, this⟩
  · exact hnat _

theorem normalizeNumber_intText (z : Int) : normalizeNumber (intText z) = intText z :=
  normalizeNumber_of_not_contains _ (intText_not_contains_dot z)

theorem intText_natCast (n : Nat) : intText (n : Int) = natText n := by
  simp [intText]

/-! ## Typing a natural number -/

theorem decDigitsFuel_eq_decDigits (n : Nat) :
    ∀ fuel, n < fuel → decDigitsFuel fuel n = decDigits n := by
  induction n using Nat.strong_induction_on with
  | _ n ih =>
    intro fuel hf
    obtain ⟨f, rfl⟩ : ∃ f, fuel = f + 1 := ⟨fuel - 1, by omega⟩
    by_cases h : n < 10
    · simp [decDigits, decDigitsFuel, h]
    · have hlt : n / 10 < n := Nat.div_lt_self (by omega) (by decide)
      simp only [decDigits, decDigitsFuel, h, if_false]
      rw [ih (n / 10) hlt f (by omega), ih (n / 10) hlt n hlt]

theorem decDigits_of_lt_ten (n : Nat) (h : n < 10) : decDigits n = [⟨n, h⟩] := by
  simp [decDigits, decDigitsFuel, h, Nat.mod_eq_of_lt h]

theorem decDigits_of_ten_le (n : Nat) (h : 10 ≤ n) :
    decDigits n = decDigits (n / 10) ++ [⟨n % 10, Nat.mod_lt n (by decide)⟩] := by
  have hlt : n / 10 < n := Nat.div_lt_self (by omega) (by decide)
  have h' : ¬ n < 10 := by omega
  have hunf : decDigits n
      = decDigitsFuel n (n / 10) ++ [⟨n % 10, Nat.mod_lt n (by decide)⟩] := by
    simp [decDigits, decDigitsFuel, h']
  rw [hunf, decDigitsFuel_eq_decDigits (n / 10) n hlt]

/-- A digit key pressed while the flag is clear. -/
theorem insertDigit_of_flag_clear (d : Fin 10) (s : State) (hf : s.clearOnNextDigit_ = false) :
    insertDigit (d.val : Int) s =
      { s with entry_ := (if s.entry_ = ['0'] then [] else s.entry_) ++ [Nat.digitChar d.val],
               lineEdit_Output :=
                 s.expr_ ++ ((if s.entry_ = ['0'] then [] else s.entry_) ++ [Nat.digitChar d.val]) } := by
  by_cases he : s.entry_ = ['0'] <;>
    simp [insertDigit, refreshDisplay, hf, he, intText_digit]

/-- Typing `n` digit by digit into an `entry_` that is empty or `0`, with the flag
clear, leaves the decimal text of `n` in `entry_`. -/
theorem run_typeNat (n : Nat) :
    ∀ s : State, s.clearOnNextDigit_ = false → (s.entry_ = [] ∨ s.entry_ = ['0']) →
      run (typeNat n) s =
        { s with entry_ := natText n, lineEdit_Output := s.expr_ ++ natText n } := by
  induction n using Nat.strong_induction_on with
  | _ n ih =>
    intro s hf he
    by_cases h : n < 10
    · rw [typeNat, decDigits_of_lt_ten n h, List.map_singleton, run_singleton, click,
        insertDigit_of_flag_clear _ s hf, natText_of_lt_ten n h]
      rcases he with he | he <;> simp [he]
    · have hlt : n / 10 < n := Nat.div_lt_self (by omega) (by decide)
      have hq : 1 ≤ n / 10 := Nat.div_pos (by omega) (by decide)
      rw [typeNat, decDigits_of_ten_le n (by omega), List.map_append, run_append,
        List.map_singleton, run_singleton, click]
      have ih' := ih (n / 10) hlt s hf he
      rw [typeNat] at ih'
      rw [ih', insertDigit_of_flag_clear, natText_of_ten_le n (by omega)]
      · simp [natText_ne_zero (n / 10) hq]
      · exact hf

/-! ## Chains of exact operators -/

theorem chainKeys_append (c d : List (ExactOp × Nat)) :
    chainKeys (c ++ d) = chainKeys c ++ chainKeys d := by
  induction c with
  | nil => rfl
  | cons p c ih => simp [chainKeys, ih]

theorem leftFold_append_singleton (n0 : Nat) (c : List (ExactOp × Nat)) (o : ExactOp) (n : Nat) :
    leftFold n0 (c ++ [(o, n)]) = o.eval (leftFold n0 c) (n : Int) := by
  simp [leftFold]

theorem ExactChain.init (n0 : Nat) (c : List (ExactOp × Nat)) (p : ExactOp × Nat)
    (h : ExactChain n0 (c ++ [p])) : ExactChain n0 c := by
  refine ⟨fun q hq => h.1 q (List.mem_append_left _ hq), fun i hi => ?_⟩
  have := h.2 i (by simp; omega)
  rwa [List.take_append_of_le_length hi] at this

theorem ExactChain.whole (n0 : Nat) (c : List (ExactOp × Nat)) (h : ExactChain n0 c) :
    (leftFold n0 c).natAbs < 10 ^ 15 := by
  have := h.2 c.length (le_refl _)
  rwa [List.take_length] at this

theorem ExactOp.symbol_ne_nil (o : ExactOp) : o.operator.symbol ≠ [] := by
  cases o <;> simp [ExactOp.operator, Operator.symbol]

theorem ExactOp.click_button (o : ExactOp) (s : State) :
    click o.operator.button s = setOp o.operator.symbol s := by
  cases o <;> rfl

/-- The pending operator of an exact chain applied to two integers gives the integer
result. -/
theorem applyPending_exact (o : ExactOp) (a b : Int) (s : State)
    (hp : s.pendingOp_ = o.operator.symbol) (ht : s.total = Dbl.ofInt a) :
    applyPending (Dbl.ofInt b) s = { s with total := Dbl.ofInt (o.eval a b) } := by
  cases o <;>
    simp [applyPending, hp, ht, ops_, List.lookup, ExactOp.operator, Operator.symbol,
      ExactOp.eval, Dbl.ofInt, Dbl.add, Dbl.sub, Dbl.mul]

/-- The state of the engine in the middle of an exact chain: the chain `c` has been
evaluated, the operator `o` is pending and the operand `n` has been typed. -/
theorem run_chain (n0 : Nat) (c : List (ExactOp × Nat)) :
    ∀ (o : ExactOp) (n : Nat), ExactChain n0 (c ++ [(o, n)]) →
      run (typeNat n0 ++ chainKeys (c ++ [(o, n)])) init =
        { total := Dbl.ofInt (leftFold n0 c),
          pendingOp_ := o.operator.symbol,
          clearOnNextDigit_ := false,
          expr_ := intText (leftFold n0 c) ++ [' '] ++ o.operator.symbol ++ [' '],
          entry_ := natText n,
          lineEdit_Output :=
            intText (leftFold n0 c) ++ [' '] ++ o.operator.symbol ++ [' '] ++ natText n } := by
  induction c using List.reverseRecOn with
  | nil =>
    intro o n _
    have h0 : run (typeNat n0) init
        = { init with entry_ := natText n0, lineEdit_Output := init.expr_ ++ natText n0 } :=
      run_typeNat n0 init rfl (Or.inr rfl)
    simp only [List.nil_append, chainKeys, List.append_nil]
    rw [run_append, h0, ← List.singleton_append, run_append, run_singleton,
      ExactOp.click_button, setOp_fresh _ _ rfl, run_typeNat _ _ rfl (Or.inl rfl)]
    simp [leftFold, toDouble_natText, intText_natCast, init, refreshDisplay,
      normalizeNumber_of_not_contains _ (intText_natCast n0 ▸ intText_not_contains_dot n0)]
  | append_singleton c p ih =>
    intro o n hex
    obtain ⟨o', n'⟩ := p
    have hex' : ExactChain n0 (c ++ [(o', n')]) := ExactChain.init n0 _ _ hex
    have hval := ExactChain.whole n0 _ hex'
    rw [chainKeys_append, ← List.append_assoc, run_append, ih o' n' hex']
    simp only [chainKeys, List.append_nil]
    rw [← List.singleton_append, run_append, run_singleton, ExactOp.click_button,
      setOp_continue _ _ (by simpa using ExactOp.symbol_ne_nil o') (by simpa using natText_ne_nil n'),
      run_typeNat _ _ rfl (Or.inl rfl)]
    simp only [toDoubleOrZero_natText]
    rw [applyPending_exact o' (leftFold n0 c) (n' : Int) _ rfl rfl]
    simp only [← leftFold_append_singleton]
    rw [number_ofInt _ hval, normalizeNumber_intText]

/-- C1: chains are evaluated strictly from left to right.  For a first operand `n0` and a
chain `op1 n1 ... opk nk` (`k ≥ 1`, here `c ++ [(o, n)]`) of operators among `+`, `-`,
`*` and natural operands typed digit by digit from the constructor state, all values
being small enough to be exact, the final `=` leaves in `entry_` the text of the left
fold `((n0 op1 n1) op2 n2) ... opk nk`, which is the normalised `number` text of that
value, and the display is the previous partial result, the last operator and operand,
` = ` and that text; the accumulator holds the left fold.  With no operator at all
`entry_` is the text of `n0`.  The clicks `3`, `+`, `4`, `*`, `2`, `=` give `14` with
the display `7 * 2 = 14`, not `11`. -/
theorem chain_left_to_right (n0 : Nat) (c : List (ExactOp × Nat)) (o : ExactOp) (n : Nat)
    (h : ExactChain n0 (c ++ [(o, n)])) :
    (run (typeNat n0 ++ chainKeys (c ++ [(o, n)]) ++ [.Equals]) init).entry_
      = intText (leftFold n0 (c ++ [(o, n)])) ∧
    (run (typeNat n0 ++ chainKeys (c ++ [(o, n)]) ++ [.Equals]) init).lineEdit_Output
      = intText (leftFold n0 c) ++ [' '] ++ o.operator.symbol ++ [' '] ++ natText n
          ++ [' ', '=', ' '] ++ intText (leftFold n0 (c ++ [(o, n)])) ∧
    (run (typeNat n0 ++ chainKeys (c ++ [(o, n)]) ++ [.Equals]) init).total
      = Dbl.ofInt (leftFold n0 (c ++ [(o, n)])) ∧
    normalizeNumber (number (Dbl.ofInt (leftFold n0 (c ++ [(o, n)]))))
      = intText (leftFold n0 (c ++ [(o, n)])) ∧
    (run (typeNat n0 ++ [.Equals]) init).entry_ = intText (leftFold n0 []) ∧
    (run [.digit 3, .Add, .digit 4, .Multiply, .digit 2, .Equals] init).entry_ = "14".toList ∧
    (run [.digit 3, .Add, .digit 4, .Multiply, .digit 2, .Equals] init).lineEdit_Output
      = "7 * 2 = 14".toList ∧
    (run [.digit 3, .Add, .digit 4, .Multiply, .digit 2, .Equals] init).total = Dbl.fin 14 ∧
    ¬ ((run [.digit 3, .Add, .digit 4, .Multiply, .digit 2, .Equals] init).entry_
      = "11".toList) := by
  have hval := ExactChain.whole n0 _ h
  have hnorm : normalizeNumber (number (Dbl.ofInt (leftFold n0 (c ++ [(o, n)]))))
      = intText (leftFold n0 (c ++ [(o, n)])) := by
    rw [number_ofInt _ hval, normalizeNumber_intText]
  have hrun : run (typeNat n0 ++ chainKeys (c ++ [(o, n)]) ++ [.Equals]) init =
      { total := Dbl.ofInt (leftFold n0 (c ++ [(o, n)])),
        pendingOp_ := [],
        clearOnNextDigit_ := true,
        expr_ := [],
        entry_ := intText (leftFold n0 (c ++ [(o, n)])),
        lineEdit_Output :=
          intText (leftFold n0 c) ++ [' '] ++ o.operator.symbol ++ [' '] ++ natText n
            ++ [' ', '=', ' '] ++ intText (leftFold n0 (c ++ [(o, n)])) } := by
    rw [run_append, run_chain n0 c o n h, run_singleton, click]
    have hsym := ExactOp.symbol_ne_nil o
    have hent := natText_ne_nil n
    have hcont : (natText n).contains '.' = false := by
      have := intText_not_contains_dot (n : Int)
      rwa [intText_natCast] at this
    simp only [equals, QString.isEmpty_eq_true, hsym, hent, if_false, toDoubleOrZero_natText]
    rw [applyPending_exact o (leftFold n0 c) (n : Int) _ rfl rfl]
    simp only [← leftFold_append_singleton, hnorm, normalizeNumber_of_not_contains _ hcont]
  have hzero : (run (typeNat n0 ++ [.Equals]) init).entry_ = intText (leftFold n0 []) := by
    rw [run_append, run_typeNat n0 init rfl (Or.inr rfl), run_singleton, click,
      equals_of_pendingOp_nil _ rfl]
    simp [leftFold, intText_natCast]
  refine ⟨?_, ?_, ?_, hnorm, hzero, by decide, by decide, by decide, by decide⟩
  · rw [hrun]
  · rw [hrun]
  · rw [hrun]

/-- Witness for `chain_left_to_right`: the chain `12 + 30 * 2 - 100`, whose left fold is
`-16`. -/
theorem chain_left_to_right_witness :
    ExactChain 12 ([(.plus, 30), (.times, 2)] ++ [(.minus, 100)]) ∧
    (run (typeNat 12 ++ chainKeys ([(.plus, 30), (.times, 2)] ++ [(.minus, 100)]) ++ [.Equals])
        init).entry_
      = intText (leftFold 12 ([(.plus, 30), (.times, 2)] ++ [(.minus, 100)])) ∧
    intText (leftFold 12 ([(.plus, 30), (.times, 2)] ++ [(.minus, 100)])) = "-16".toList ∧
    (run (typeNat 12 ++ chainKeys ([(.plus, 30), (.times, 2)] ++ [(.minus, 100)]) ++ [.Equals])
        init).lineEdit_Output = "84 - 100 = -16".toList :=
  ⟨by decide,
   (chain_left_to_right 12 [(.plus, 30), (.times, 2)] .minus 100 (by decide)).1,
   by decide, by decide⟩

/-! ## The entry-editing actions -/

theorem QString.contains_zero_dot : QString.contains ['0'] '.' = false := by decide

theorem QString.ne_nil_of_contains (s : QString) (c : Char) (h : s.contains c = true) :
    s ≠ [] := by
  intro hnil
  rw [hnil] at h
  simp [QString.contains] at h

theorem QString.contains_append_singleton_self (s : QString) (c : Char) :
    (s ++ [c]).contains c = true := by
  simp [QString.contains]

/-- The action `insertDot` with the flag set: `entry_` restarts as `0.`. -/
theorem insertDot_of_flag_set (s : State) (hf : s.clearOnNextDigit_ = true) :
    insertDot s =
      { s with entry_ := ['0', '.'], clearOnNextDigit_ := false,
               lineEdit_Output := s.expr_ ++ ['0', '.'] } := by
  simp [insertDot, refreshDisplay, hf, QString.contains_zero_dot]

/-- The action `insertDot` with the flag clear and a point already in `entry_`. -/
theorem insertDot_of_contains (s : State) (hf : s.clearOnNextDigit_ = false)
    (hc : s.entry_.contains '.' = true) :
    insertDot s = { s with lineEdit_Output := s.expr_ ++ s.entry_ } := by
  have hne := QString.ne_nil_of_contains _ _ hc
  simp [insertDot, refreshDisplay, hf, hc, hne]

/-- The action `insertDot` with the flag clear and no point in `entry_`. -/
theorem insertDot_of_not_contains (s : State) (hf : s.clearOnNextDigit_ = false)
    (hc : s.entry_.contains '.' = false) :
    insertDot s =
      { s with entry_ := s.entry_ ++ ['.'], lineEdit_Output := s.expr_ ++ (s.entry_ ++ ['.']) } := by
  simp [insertDot, refreshDisplay, hf, hc]

/-- The three cases of `insertDot`. -/
theorem insertDot_cases (s : State) :
    insertDot s = { s with entry_ := ['0', '.'], clearOnNextDigit_ := false,
                           lineEdit_Output := s.expr_ ++ ['0', '.'] } ∨
    (s.entry_.contains '.' = true ∧ s.clearOnNextDigit_ = false ∧
      insertDot s = { s with lineEdit_Output := s.expr_ ++ s.entry_ }) ∨
    (s.entry_.contains '.' = false ∧ s.clearOnNextDigit_ = false ∧
      insertDot s = { s with entry_ := s.entry_ ++ ['.'],
                             lineEdit_Output := s.expr_ ++ (s.entry_ ++ ['.']) }) := by
  by_cases hf : s.clearOnNextDigit_ = true
  · exact Or.inl (insertDot_of_flag_set s hf)
  · simp only [Bool.not_eq_true] at hf
    by_cases hc : s.entry_.contains '.' = true
    · exact Or.inr (Or.inl ⟨hc, hf, insertDot_of_contains s hf hc⟩)
    · simp only [Bool.not_eq_true] at hc
      exact Or.inr (Or.inr ⟨hc, hf, insertDot_of_not_contains s hf hc⟩)

/-- The fields other than `entry_`, the flag and the display after `insertDigit`. -/
theorem insertDigit_frame (d : Int) (s : State) :
    (insertDigit d s).total = s.total ∧ (insertDigit d s).pendingOp_ = s.pendingOp_ ∧
      (insertDigit d s).expr_ = s.expr_ := by
  by_cases hf : s.clearOnNextDigit_ = true <;> by_cases he : s.entry_ = ['0'] <;>
    simp [insertDigit, refreshDisplay, hf, he]

theorem insertDot_frame (s : State) :
    (insertDot s).total = s.total ∧ (insertDot s).pendingOp_ = s.pendingOp_ ∧
      (insertDot s).expr_ = s.expr_ := by
  rcases insertDot_cases s with h | ⟨-, -, h⟩ | ⟨-, -, h⟩ <;> rw [h] <;> exact ⟨rfl, rfl, rfl⟩

theorem backspace_frame (s : State) :
    (backspace s).total = s.total ∧ (backspace s).pendingOp_ = s.pendingOp_ ∧
      (backspace s).expr_ = s.expr_ := by
  by_cases hf : s.clearOnNextDigit_ = true <;> by_cases hl : s.entry_.length ≤ 1 <;>
    simp [backspace, refreshDisplay, hf, hl]

/-- The two cases of `toggleSign`. -/
theorem toggleSign_cases (s : State) :
    (toDouble s.entry_ = none ∧ toggleSign s = s) ∨
    ∃ v, toDouble s.entry_ = some v ∧
      toggleSign s = { s with entry_ := number (Dbl.neg v),
                              lineEdit_Output := s.expr_ ++ number (Dbl.neg v) } := by
  cases hv : toDouble s.entry_ with
  | none => exact Or.inl ⟨rfl, by simp [toggleSign, hv]⟩
  | some v =>
    refine Or.inr ⟨v, rfl, ?_⟩
    simp [toggleSign, hv, refreshDisplay, number_ne_nil]

theorem toggleSign_frame (s : State) :
    (toggleSign s).total = s.total ∧ (toggleSign s).pendingOp_ = s.pendingOp_ ∧
      (toggleSign s).expr_ = s.expr_ := by
  rcases toggleSign_cases s with ⟨-, h⟩ | ⟨v, -, h⟩ <;> rw [h] <;> exact ⟨rfl, rfl, rfl⟩

/-- C15: `insertDigit`, `insertDot`, `backspace` and `toggleSign` leave the accumulator,
the pending operator and `expr_` unchanged, from every state. -/
theorem editing_frame (s : State) (d : Int) :
    ((insertDigit d s).total = s.total ∧ (insertDigit d s).pendingOp_ = s.pendingOp_ ∧
      (insertDigit d s).expr_ = s.expr_) ∧
    ((insertDot s).total = s.total ∧ (insertDot s).pendingOp_ = s.pendingOp_ ∧
      (insertDot s).expr_ = s.expr_) ∧
    ((backspace s).total = s.total ∧ (backspace s).pendingOp_ = s.pendingOp_ ∧
      (backspace s).expr_ = s.expr_) ∧
    ((toggleSign s).total = s.total ∧ (toggleSign s).pendingOp_ = s.pendingOp_ ∧
      (toggleSign s).expr_ = s.expr_) :=
  ⟨insertDigit_frame d s, insertDot_frame s, backspace_frame s, toggleSign_frame s⟩

/-- C16: with `clearOnNextDigit_` set, `insertDigit`, `insertDot` and `backspace` act as
on the same state with `entry_` replaced by `0` and the flag cleared; the resulting
`entry_` is the text of the digit, `0.` and `0`, and the flag is cleared. -/
theorem editing_after_equals_starts_fresh (s : State) (d : Int)
    (h : s.clearOnNextDigit_ = true) :
    insertDigit d s = insertDigit d { s with entry_ := ['0'], clearOnNextDigit_ := false } ∧
    insertDot s = insertDot { s with entry_ := ['0'], clearOnNextDigit_ := false } ∧
    backspace s = backspace { s with entry_ := ['0'], clearOnNextDigit_ := false } ∧
    (insertDigit d s).entry_ = intText d ∧
    (insertDot s).entry_ = ['0', '.'] ∧
    (backspace s).entry_ = ['0'] ∧
    (insertDigit d s).clearOnNextDigit_ = false ∧
    (insertDot s).clearOnNextDigit_ = false ∧
    (backspace s).clearOnNextDigit_ = false := by
  refine ⟨?_, ?_, ?_, ?_, ?_, ?_, ?_, ?_, ?_⟩ <;>
    simp [insertDigit, insertDot, backspace, refreshDisplay, h, QString.contains_zero_dot]

/-- Witness for `editing_after_equals_starts_fresh`, at the state after `5`, `+`, `3`,
`=` and with the digit `7`. -/
theorem editing_after_equals_starts_fresh_witness :
    (run [.digit 5, .Add, .digit 3, .Equals] init).clearOnNextDigit_ = true ∧
    (insertDigit 7 (run [.digit 5, .Add, .digit 3, .Equals] init)).entry_ = intText 7 ∧
    (insertDot (run [.digit 5, .Add, .digit 3, .Equals] init)).entry_ = ['0', '.'] ∧
    (backspace (run [.digit 5, .Add, .digit 3, .Equals] init)).entry_ = ['0'] :=
  ⟨by decide,
   (editing_after_equals_starts_fresh (run [.digit 5, .Add, .digit 3, .Equals] init) 7
      (by decide)).2.2.2.1,
   (editing_after_equals_starts_fresh (run [.digit 5, .Add, .digit 3, .Equals] init) 7
      (by decide)).2.2.2.2.1,
   (editing_after_equals_starts_fresh (run [.digit 5, .Add, .digit 3, .Equals] init) 7
      (by decide)).2.2.2.2.2.1⟩

/-- C17: `insertDot` is idempotent from every state; when `entry_` already contains a
point and the flag is clear, `insertDot` changes no field of the engine and shows
`expr_ + entry_`. -/
theorem insertDot_idempotent (s : State) :
    insertDot (insertDot s) = insertDot s ∧
    (s.entry_.contains '.' = true → s.clearOnNextDigit_ = false →
      insertDot s = { s with lineEdit_Output := s.expr_ ++ s.entry_ }) := by
  refine ⟨?_, fun hc hf => insertDot_of_contains s hf hc⟩
  rcases insertDot_cases s with h | ⟨hc, hf, h⟩ | ⟨hc, hf, h⟩
  · rw [h]
    exact insertDot_of_contains _ rfl (show QString.contains ['0', '.'] '.' = true by decide)
  · rw [h]
    exact insertDot_of_contains _ hf hc
  · rw [h]
    exact insertDot_of_contains _ hf (QString.contains_append_singleton_self s.entry_ '.')

/-- Witness for `insertDot_idempotent`, at the state after `1`, `.`, `5`. -/
theorem insertDot_idempotent_witness :
    (run [.digit 1, .decimal, .digit 5] init).entry_.contains '.' = true ∧
    (run [.digit 1, .decimal, .digit 5] init).clearOnNextDigit_ = false ∧
    insertDot (run [.digit 1, .decimal, .digit 5] init) =
      { run [.digit 1, .decimal, .digit 5] init with
          lineEdit_Output := (run [.digit 1, .decimal, .digit 5] init).expr_
            ++ (run [.digit 1, .decimal, .digit 5] init).entry_ } :=
  ⟨by decide, by decide,
   (insertDot_idempotent (run [.digit 1, .decimal, .digit 5] init)).2 (by decide) (by decide)⟩

/-! ## The sign toggle on integers -/

/-- A non-empty string of digits behind a minus sign converts to the negative of the
natural number it denotes. -/
theorem toDouble_neg_digits (ds : QString) (hne : ds ≠ []) (hd : ∀ c ∈ ds, c.isDigit = true) :
    toDouble ('-' :: ds) = some (Dbl.ofInt (-(natOfDigits ds : Int))) := by
  have hnan : '-' :: ds ≠ ['n', 'a', 'n'] := by
    intro he
    simp only [List.cons.injEq] at he
    exact absurd he.1 (by decide)
  have hexp : ∀ x ∈ ds, (x != 'e' && x != 'E') = true := by
    intro x hx
    have hxd := hd x hx
    have h1 : x ≠ 'e' := by
      intro he
      rw [he] at hxd
      exact absurd hxd (by decide)
    have h2 : x ≠ 'E' := by
      intro he
      rw [he] at hxd
      exact absurd hxd (by decide)
    simp [h1, h2]
  have hsign : splitSign ('-' :: ds) = (true, ds) := rfl
  simp only [toDouble, hnan, if_false, hsign, span_of_all _ _ hexp, span_of_all _ _ hd,
    parseFraction, parseExponent]
  simp [ofDecimal, Dbl.ofInt, Rat.mkRat_one, hne]

theorem Dbl.neg_ofInt (z : Int) : Dbl.neg (Dbl.ofInt z) = Dbl.ofInt (-z) := by
  simp [Dbl.neg, Dbl.ofInt]

theorem intText_neg_natCast (n : Nat) (h1 : 1 ≤ n) : intText (-(n : Int)) = '-' :: natText n := by
  have hneg : -(n : Int) < 0 := by omega
  simp [intText, hneg]

/-- The action `toggleSign` on the decimal text of a non-zero natural number below
`10 ^ 15`: a minus sign is put in front. -/
theorem toggleSign_natText (s : State) (n : Nat) (h1 : 1 ≤ n) (h15 : n < 10 ^ 15)
    (he : s.entry_ = natText n) :
    toggleSign s =
      { s with entry_ := '-' :: natText n, lineEdit_Output := s.expr_ ++ '-' :: natText n } := by
  have hnum : number (Dbl.ofInt (-(n : Int))) = '-' :: natText n := by
    rw [number_ofInt _ (by simpa using h15), intText_neg_natCast n h1]
  simp [toggleSign, he, toDouble_natText, Dbl.neg_ofInt, hnum, refreshDisplay]

/-- The action `toggleSign` on the decimal text of a non-zero natural number below
`10 ^ 15` behind a minus sign: the sign is taken away. -/
theorem toggleSign_neg_natText (s : State) (n : Nat) (h15 : n < 10 ^ 15)
    (he : s.entry_ = '-' :: natText n) :
    toggleSign s =
      { s with entry_ := natText n, lineEdit_Output := s.expr_ ++ natText n } := by
  have hpar : toDouble ('-' :: natText n) = some (Dbl.ofInt (-(n : Int))) := by
    rw [toDouble_neg_digits _ (natText_ne_nil n) (natText_all_isDigit n), natOfDigits_natText]
  have hnum : number (Dbl.ofInt (n : Int)) = natText n := by
    rw [number_ofInt _ (by simpa using h15), intText_natCast]
  simp [toggleSign, he, hpar, Dbl.neg_ofInt, hnum, refreshDisplay, natText_ne_nil]

/-- C18: `toggleSign` changes nothing when `entry_` does not parse as a number, as for
the empty `entry_`; on the canonical decimal text of a non-zero integer of at most
fifteen digits it puts `-` in front of `entry_`, and a second `toggleSign` restores the
original `entry_`. -/
theorem toggleSign_negates_integer (s : State) (n : Nat) (h1 : 1 ≤ n) (h15 : n < 10 ^ 15) :
    (toDouble s.entry_ = none → toggleSign s = s) ∧
    toDouble ([] : QString) = none ∧
    toggleSign { s with entry_ := natText n } =
      { s with entry_ := '-' :: natText n, lineEdit_Output := s.expr_ ++ '-' :: natText n } ∧
    (toggleSign (toggleSign { s with entry_ := natText n })).entry_ = natText n := by
  refine ⟨?_, by decide, toggleSign_natText _ n h1 h15 rfl, ?_⟩
  · intro hnone
    simp [toggleSign, hnone]
  · rw [toggleSign_natText { s with entry_ := natText n } n h1 h15 rfl,
      toggleSign_neg_natText _ n h15 rfl]

/-- Witness for `toggleSign_negates_integer`: the entry `42`, and the empty entry after
`5`, `+`. -/
theorem toggleSign_negates_integer_witness :
    1 ≤ 42 ∧ 42 < 10 ^ 15 ∧
    toDouble (run [.digit 5, .Add] init).entry_ = none ∧
    toggleSign (run [.digit 5, .Add] init) = run [.digit 5, .Add] init ∧
    natText 42 = ['4', '2'] ∧
    (toggleSign { run [.digit 5, .Add] init with entry_ := natText 42 }).entry_
      = '-' :: natText 42 ∧
    (toggleSign (toggleSign { run [.digit 5, .Add] init with entry_ := natText 42 })).entry_
      = natText 42 :=
  ⟨by decide, by decide, by decide,
   (toggleSign_negates_integer (run [.digit 5, .Add] init) 42 (by decide) (by decide)).1
     (by decide),
   by decide,
   congrArg State.entry_
     (toggleSign_negates_integer (run [.digit 5, .Add] init) 42 (by decide) (by decide)).2.2.1,
   (toggleSign_negates_integer (run [.digit 5, .Add] init) 42 (by decide) (by decide)).2.2.2⟩

/-! ## The arithmetic dispatch -/

/-- C19: `applyPending` writes the right-hand side into the accumulator when no operator
is pending, the sum, difference or product for `+`, `-`, `*`, and for `÷` the quotient
when the right-hand side is not zero and not-a-number when it is zero; any other symbol
leaves the state as it is; no other field changes.  On rationals the results are the
exact `a + b`, `a - b`, `a * b` and `a / b`. -/
theorem applyPending_dispatch (s : State) (b : Dbl) (p q : ℚ) (op : QString)
    (hop : op ≠ []) (hother : op ∉ [['+'], ['-'], ['*'], ['÷']]) :
    applyPending b { s with pendingOp_ := [] } = { s with pendingOp_ := [], total := b } ∧
    applyPending b { s with pendingOp_ := ['+'] }
      = { s with pendingOp_ := ['+'], total := Dbl.add s.total b } ∧
    applyPending b { s with pendingOp_ := ['-'] }
      = { s with pendingOp_ := ['-'], total := Dbl.sub s.total b } ∧
    applyPending b { s with pendingOp_ := ['*'] }
      = { s with pendingOp_ := ['*'], total := Dbl.mul s.total b } ∧
    applyPending b { s with pendingOp_ := ['÷'] }
      = { s with pendingOp_ := ['÷'],
                 total := if Dbl.isZero b then Dbl.nan else Dbl.div s.total b } ∧
    applyPending b { s with pendingOp_ := op } = { s with pendingOp_ := op } ∧
    Dbl.add (Dbl.fin p) (Dbl.fin q) = Dbl.fin (p + q) ∧
    Dbl.sub (Dbl.fin p) (Dbl.fin q) = Dbl.fin (p - q) ∧
    Dbl.mul (Dbl.fin p) (Dbl.fin q) = Dbl.fin (p * q) ∧
    (q ≠ 0 → (applyPending (Dbl.fin q) { s with total := Dbl.fin p, pendingOp_ := ['÷'] }).total
      = Dbl.fin (p / q)) ∧
    (applyPending (Dbl.fin 0) { s with total := Dbl.fin p, pendingOp_ := ['÷'] }).total
      = Dbl.nan := by
  refine ⟨?_, ?_, ?_, ?_, ?_, ?_, rfl, rfl, rfl, ?_, ?_⟩
  · simp [applyPending]
  · simp [applyPending, ops_, List.lookup]
  · simp [applyPending, ops_, List.lookup]
  · simp [applyPending, ops_, List.lookup]
  · simp [applyPending, ops_, List.lookup]
  · simp only [List.mem_cons, List.mem_singleton, List.not_mem_nil, or_false, not_or] at hother
    obtain ⟨h1, h2, h3, h4⟩ := hother
    have e1 : (op == ['+']) = false := by simpa using h1
    have e2 : (op == ['-']) = false := by simpa using h2
    have e3 : (op == ['*']) = false := by simpa using h3
    have e4 : (op == ['÷']) = false := by simpa using h4
    simp [applyPending, hop, ops_, List.lookup, e1, e2, e3, e4]
  · intro hq
    simp [applyPending, ops_, List.lookup, Dbl.isZero, Dbl.div, hq]
  · simp [applyPending, ops_, List.lookup, Dbl.isZero]

/-- Witness for `applyPending_dispatch`: the symbol `x`, and `7 ÷ 2`. -/
theorem applyPending_dispatch_witness :
    (['x'] : QString) ≠ [] ∧ (['x'] : QString) ∉ [['+'], ['-'], ['*'], ['÷']] ∧
    applyPending (Dbl.fin 2) { init with pendingOp_ := ['x'] }
      = { init with pendingOp_ := ['x'] } ∧
    (2 : ℚ) ≠ 0 ∧
    (applyPending (Dbl.fin 2) { init with total := Dbl.fin 7, pendingOp_ := ['÷'] }).total
      = Dbl.fin (7 / 2) :=
  ⟨by decide, by decide,
   (applyPending_dispatch init (Dbl.fin 2) 7 2 ['x'] (by decide) (by decide)).2.2.2.2.2.1,
   by decide,
   (applyPending_dispatch init (Dbl.fin 2) 7 2 ['x'] (by decide) (by decide)).2.2.2.2.2.2.2.2.2.1
     (by decide)⟩

/-! ## Reachable states -/

/-- Induction over the reachable states: a property of the constructor state that every
click preserves holds in every reachable state. -/
theorem Reachable.induction (P : State → Prop) (h0 : P init)
    (hstep : ∀ s b, P s → P (click b s)) : ∀ s, Reachable s → P s := by
  rintro s ⟨bs, rfl⟩
  induction bs using List.reverseRecOn with
  | nil => exact h0
  | append_singleton bs b ih =>
    rw [run_append, run_singleton]
    exact hstep _ b ih

theorem intText_ne_nil (z : Int) : intText z ≠ [] := by
  unfold intText
  split_ifs
  · simp
  · exact natText_ne_nil _

theorem insertDigit_entry (d : Int) (s : State) :
    (insertDigit d s).entry_ =
      (if s.clearOnNextDigit_ = true ∨ s.entry_ = ['0'] then [] else s.entry_) ++ intText d := by
  by_cases hf : s.clearOnNextDigit_ = true <;> by_cases he : s.entry_ = ['0'] <;>
    simp [insertDigit, refreshDisplay, hf, he]

theorem insertDigit_flag (d : Int) (s : State) : (insertDigit d s).clearOnNextDigit_ = false := by
  by_cases hf : s.clearOnNextDigit_ = true <;> by_cases he : s.entry_ = ['0'] <;>
    simp [insertDigit, refreshDisplay, hf, he]

theorem insertDigit_entry_ne_nil (d : Int) (s : State) : (insertDigit d s).entry_ ≠ [] := by
  rw [insertDigit_entry]
  intro h
  exact intText_ne_nil d (List.append_eq_nil.mp h).2

theorem backspace_entry_ne_nil (s : State) : (backspace s).entry_ ≠ [] := by
  rw [backspace_entry]
  split_ifs with h1 h2
  · simp
  · simp
  · intro h
    have hlen := congrArg List.length h
    rw [QString.length_chop] at hlen
    simp at hlen
    omega

/-! ## The coupling of the chain fields -/

theorem Operator.symbol_nonempty (o : Operator) : o.symbol ≠ [] := by
  cases o <;> simp [Operator.symbol]

theorem Coupled.at_init : Coupled init := by
  refine ⟨Or.inl rfl, ⟨fun _ => rfl, fun _ => rfl⟩, fun h => absurd rfl h, ?_, ?_⟩
  · intro h
    exact absurd h (by decide)
  · intro h
    exact absurd h (by decide)

/-- An action that keeps `pendingOp_` and `expr_`, leaves `entry_` non-empty and clears
the flag keeps the coupling. -/
theorem Coupled.of_edit (s t : State) (h : Coupled s) (hp : t.pendingOp_ = s.pendingOp_)
    (hx : t.expr_ = s.expr_) (he : t.entry_ ≠ [])
    (hf : t.clearOnNextDigit_ = true → s.clearOnNextDigit_ = true) : Coupled t := by
  obtain ⟨h1, h2, h3, -, h5⟩ := h
  refine ⟨?_, ?_, ?_, ?_, ?_⟩
  · rw [hp]; exact h1
  · rw [hp, hx]; exact h2
  · rw [hp, hx]; exact h3
  · intro hnil; exact absurd hnil he
  · intro hflag; rw [hp]; exact h5 (hf hflag)

/-- The states after an operator: `expr_` is `t`, the operator and a blank, and the flag
is clear. -/
theorem Coupled.of_operator (s : State) (o : Operator) (t : QString)
    (hp : s.pendingOp_ = o.symbol) (hx : s.expr_ = t ++ o.symbol ++ [' '])
    (hf : s.clearOnNextDigit_ = false) : Coupled s := by
  have hne := o.symbol_nonempty
  refine ⟨Or.inr ⟨o, hp⟩, ?_, ?_, ?_, ?_⟩
  · rw [hp, hx]
    constructor
    · intro h
      simp at h
    · intro h
      exact absurd h hne
  · intro _
    exact ⟨t, by rw [hx, hp]⟩
  · intro _
    rw [hp]
    exact hne
  · intro h
    rw [hf] at h
    exact absurd h (by decide)

theorem Coupled.after_setOp (s : State) (o : Operator) (h : Coupled s) : Coupled (setOp o.symbol s) := by
  obtain ⟨c, hc⟩ := o.symbol_eq_singleton
  by_cases hp : s.pendingOp_ = []
  · rw [setOp_fresh _ s hp]
    exact Coupled.of_operator _ o (normalizeNumber s.entry_ ++ [' ']) rfl (by simp) rfl
  · by_cases he : s.entry_ = []
    · obtain ⟨h1, h2, h3, -, h5⟩ := h
      obtain ⟨t, ht⟩ := h3 hp
      obtain ⟨o', ho'⟩ := h1.resolve_left hp
      obtain ⟨c', hc'⟩ := o'.symbol_eq_singleton
      have hexpr : s.expr_ = t ++ [c', ' '] := by
        rw [ht, ho', hc']
        simp
      have hx : s.expr_ ≠ [] := by
        rw [hexpr]
        simp
      have hxe : s.expr_.endsWith ' ' = true := by
        rw [hexpr]
        simp
      have hflag : s.clearOnNextDigit_ = false := by
        cases hfl : s.clearOnNextDigit_ with
        | false => rfl
        | true => exact absurd (h5 hfl) hp
      rw [setOp_replace _ s hp he hx hxe, hexpr, QString.chop_append_pair]
      exact Coupled.of_operator _ o t rfl (by simp) hflag
    · rw [setOp_continue _ s hp he]
      exact Coupled.of_operator _ o
        (normalizeNumber (number (applyPending (toDoubleOrZero s.entry_) s).total) ++ [' '])
        rfl (by simp) rfl

theorem Coupled.after_equals (s : State) (h : Coupled s) : Coupled (equals s) := by
  by_cases hp : s.pendingOp_ = []
  · rw [equals_of_pendingOp_nil s hp]
    exact h
  · obtain ⟨-, hp', hx', he', -⟩ := equals_of_pendingOp_ne_nil s hp
    refine ⟨Or.inl hp', ⟨fun _ => hp', fun _ => hx'⟩, fun hne => absurd hp' hne, ?_, fun _ => hp'⟩
    intro hnil
    rw [he'] at hnil
    exact absurd hnil (normalizeNumber_ne_nil _ (number_ne_nil _))

/-- Every click keeps the coupling of the chain fields. -/
theorem Coupled.after_click (s : State) (b : Button) (h : Coupled s) : Coupled (click b s) := by
  cases b with
  | digit d =>
    show Coupled (insertDigit (d.val : Int) s)
    have hfr := insertDigit_frame (d.val : Int) s
    refine Coupled.of_edit s _ h hfr.2.1 hfr.2.2 (insertDigit_entry_ne_nil _ s) ?_
    intro hf
    rw [insertDigit_flag] at hf
    exact absurd hf (by decide)
  | decimal =>
    show Coupled (insertDot s)
    have hfr := insertDot_frame s
    refine Coupled.of_edit s _ h hfr.2.1 hfr.2.2 ?_ ?_
    · rcases insertDot_cases s with h' | ⟨hc, -, h'⟩ | ⟨-, -, h'⟩
      · rw [h']; simp
      · rw [h']; exact QString.ne_nil_of_contains _ _ hc
      · rw [h']; simp
    · rcases insertDot_cases s with h' | ⟨-, -, h'⟩ | ⟨-, -, h'⟩
      · rw [h']
        intro hf
        simp at hf
      · rw [h']; exact id
      · rw [h']; exact id
  | C => exact Coupled.at_init
  | CE => exact Coupled.at_init
  | Delete =>
    show Coupled (backspace s)
    have hfr := backspace_frame s
    refine Coupled.of_edit s _ h hfr.2.1 hfr.2.2 (backspace_entry_ne_nil s) ?_
    intro hf
    rw [backspace_flag] at hf
    exact absurd hf (by decide)
  | PosNeg =>
    show Coupled (toggleSign s)
    rcases toggleSign_cases s with ⟨-, h'⟩ | ⟨v, -, h'⟩
    · rw [h']; exact h
    · rw [h']
      exact Coupled.of_edit s _ h rfl rfl (number_ne_nil _) id
  | Add => exact Coupled.after_setOp s .plus h
  | Minus => exact Coupled.after_setOp s .minus h
  | Multiply => exact Coupled.after_setOp s .times h
  | Divide => exact Coupled.after_setOp s .divide h
  | Equals => exact Coupled.after_equals s h

theorem Coupled.of_reachable (s : State) (h : Reachable s) : Coupled s :=
  Reachable.induction Coupled Coupled.at_init Coupled.after_click s h

/-- C20: in every reachable state `expr_` is empty exactly when no operator is pending;
with a pending operator `expr_` ends with that operator followed by one blank;
`entry_` is empty only while an operator is pending; the flag is set only while no
operator is pending; the pending operator is absent or one of the four symbols.  So
the condition of the last branch of `setOp` (operator pending, `entry_` empty, `expr_`
empty or not ending in a blank) holds in no reachable state. -/
theorem chain_coupling (s : State) (h : Reachable s) :
    (s.expr_ = [] ↔ s.pendingOp_ = []) ∧
    (s.pendingOp_ ≠ [] → ∃ t : QString, s.expr_ = t ++ s.pendingOp_ ++ [' ']) ∧
    (s.entry_ = [] → s.pendingOp_ ≠ []) ∧
    (s.clearOnNextDigit_ = true → s.pendingOp_ = []) ∧
    (s.pendingOp_ = [] ∨ ∃ o : Operator, s.pendingOp_ = o.symbol) ∧
    ¬ (s.pendingOp_ ≠ [] ∧ s.entry_ = [] ∧
        (s.expr_ = [] ∨ s.expr_.endsWith ' ' = false)) := by
  obtain ⟨h1, h2, h3, h4, h5⟩ := Coupled.of_reachable s h
  refine ⟨h2, h3, h4, h5, h1, ?_⟩
  rintro ⟨hp, -, hx⟩
  obtain ⟨t, ht⟩ := h3 hp
  rcases hx with hx | hx
  · rw [ht] at hx
    simp at hx
  · rw [ht, QString.endsWith_append_singleton] at hx
    simp at hx

/-- Witness for `chain_coupling`: the state after `5`, `+` (operator pending, `entry_`
empty) and the state after `5`, `+`, `3`, `=` (flag set). -/
theorem chain_coupling_witness :
    Reachable (run [.digit 5, .Add] init) ∧
    (run [.digit 5, .Add] init).pendingOp_ ≠ [] ∧
    (run [.digit 5, .Add] init).entry_ = [] ∧
    (∃ t : QString, (run [.digit 5, .Add] init).expr_
      = t ++ (run [.digit 5, .Add] init).pendingOp_ ++ [' ']) ∧
    (run [.digit 5, .Add] init).expr_ = "5 + ".toList ∧
    Reachable (run [.digit 5, .Add, .digit 3, .Equals] init) ∧
    (run [.digit 5, .Add, .digit 3, .Equals] init).clearOnNextDigit_ = true ∧
    (run [.digit 5, .Add, .digit 3, .Equals] init).pendingOp_ = [] :=
  ⟨⟨_, rfl⟩, by decide, by decide,
   (chain_coupling (run [.digit 5, .Add] init) ⟨_, rfl⟩).2.1 (by decide),
   by decide, ⟨_, rfl⟩, by decide,
   (chain_coupling (run [.digit 5, .Add, .digit 3, .Equals] init) ⟨_, rfl⟩).2.2.2.1 (by decide)⟩

/-! ## Decimal points in `entry_` -/

theorem natText_count_dot (n : Nat) : (natText n).count '.' = 0 := by
  rw [List.count_eq_zero]
  intro hmem
  have := natText_all_isDigit n '.' hmem
  exact absurd this (by decide)

theorem intText_count_dot (z : Int) : (intText z).count '.' = 0 := by
  unfold intText
  split_ifs
  · rw [List.count_cons, natText_count_dot]
    decide
  · exact natText_count_dot _

theorem layoutG_count_dot (ds : QString) (decpt : Int) (h : ds.count '.' = 0) :
    (layoutG ds decpt).count '.' ≤ 1 := by
  have hex : ∀ n : Nat,
      (if (natText n).length < 2 then '0' :: natText n else natText n).count '.' = 0 := by
    intro n
    split_ifs
    · rw [List.count_cons, natText_count_dot]
      decide
    · exact natText_count_dot n
  have hsign : ∀ b : Prop, [Decidable b] → (['e', if b then '-' else '+'] : QString).count '.' = 0 := by
    intro b _
    by_cases hb : b <;> simp [hb]
  by_cases h1 : decpt ≤ -4 ∨ 15 < decpt
  · rcases ds with _ | ⟨c, _ | ⟨d, rest⟩⟩
    · simp only [layoutG, h1, if_true, List.count_append, hex, hsign]
      simp
    · simp only [layoutG, h1, if_true, List.count_append, hex, hsign, h]
      omega
    · have hmem : '.' ∉ c :: d :: rest := List.count_eq_zero.mp h
      have hrest : (d :: rest).count '.' = 0 :=
        List.count_eq_zero.mpr (fun hm => hmem (List.mem_cons_of_mem _ hm))
      have hcne : c ≠ '.' := fun he => hmem (he ▸ List.mem_cons_self _ _)
      have hone : (c :: '.' :: d :: rest).count '.' = 1 := by
        rw [List.count_cons, List.count_cons, hrest]
        simp [hcne]
      simp only [layoutG, h1, if_true, List.count_append, hex, hsign, hone]
      omega
  · simp only [layoutG, h1, if_false]
    split_ifs with h2 h3
    · simp [List.count_cons, List.count_append, List.count_replicate, h]
    · have hsplit : (ds.take decpt.toNat).count '.' + (ds.drop decpt.toNat).count '.' = 0 := by
        rw [← List.count_append, List.take_append_drop, h]
      simp only [List.count_append, List.count_cons]
      simp
      omega
    · simp [List.count_append, List.count_replicate, h]

theorem number_count_dot (v : Dbl) : (number v).count '.' ≤ 1 := by
  cases v with
  | nan => decide
  | fin q =>
    simp only [number]
    by_cases hq : q.num = 0
    · simp [hq]
    · simp only [hq, if_false]
      have hds : ∀ n : Nat, ((natText n).rdropWhile (fun c => c == '0')).count '.' = 0 := by
        intro n
        have hle := (List.rdropWhile_prefix (fun c => c == '0') (natText n)).sublist.count_le '.'
        rw [natText_count_dot] at hle
        omega
      have hlay := layoutG_count_dot _
        (decExp q.num.natAbs q.den + 1 +
          (if 10 ^ 15 ≤ sig15 q.num.natAbs q.den (decExp q.num.natAbs q.den) then 1 else 0))
        (hds (sig15 q.num.natAbs q.den (decExp q.num.natAbs q.den)))
      rw [List.count_append]
      by_cases hneg : q.num < 0 <;> simp [hneg] <;> exact hlay

theorem chop_count_le (s : QString) (n : Nat) (c : Char) : (s.chop n).count c ≤ s.count c :=
  (List.take_sublist _ _).count_le c

/-- The result of `normalizeNumber` is its argument, `0`, or its argument with
characters chopped off the end. -/
theorem normalizeNumber_cases (s : QString) :
    normalizeNumber s = s ∨ normalizeNumber s = ['0'] ∨ normalizeNumber s = chopZeros s ∨
      normalizeNumber s = (chopZeros s).chop 1 := by
  by_cases hc : s.contains '.' = true
  · by_cases hd : (chopZeros s).endsWith '.' = true
    · by_cases he : ((chopZeros s).chop 1) = []
      · exact Or.inr (Or.inl (by simp [normalizeNumber, hc, hd, he]))
      · exact Or.inr (Or.inr (Or.inr (by simp [normalizeNumber, hc, hd, he])))
    · by_cases he : chopZeros s = []
      · exact Or.inr (Or.inl (by simp [normalizeNumber, hc, hd, he]))
      · exact Or.inr (Or.inr (Or.inl (by simp [normalizeNumber, hc, hd, he])))
  · exact Or.inl (by simp [normalizeNumber, hc])

theorem normalizeNumber_count_dot (s : QString) :
    (normalizeNumber s).count '.' ≤ s.count '.' := by
  have hchop : (chopZeros s).count '.' ≤ s.count '.' := by
    rw [chopZeros_eq_rdropWhile]
    exact (List.rdropWhile_prefix _ _).sublist.count_le '.'
  rcases normalizeNumber_cases s with h | h | h | h <;> rw [h]
  · simp
  · exact hchop
  · exact le_trans (chop_count_le _ _ _) hchop

/-- After `setOp` the entry is empty, whatever the branch. -/
theorem setOp_entry (op : QString) (s : State) : (setOp op s).entry_ = [] := by
  by_cases hp : s.pendingOp_ = []
  · rw [setOp_fresh op s hp]
  · by_cases he : s.entry_ = []
    · by_cases hx : s.expr_ = []
      · rw [setOp_fallback_nil op s hp he hx]
        exact he
      · by_cases hxe : s.expr_.endsWith ' ' = true
        · rw [setOp_replace op s hp he hx hxe]
          exact he
        · simp only [Bool.not_eq_true] at hxe
          rw [setOp_fallback_keep op s hp he hx hxe]
          exact he
    · rw [setOp_continue op s hp he]

theorem count_dot_of_not_contains (s : QString) (h : s.contains '.' = false) :
    s.count '.' = 0 := by
  rw [List.count_eq_zero]
  intro hmem
  have := (QString.contains_iff_mem s '.').mpr hmem
  rw [h] at this
  exact absurd this (by decide)

/-- Every click keeps at most one decimal point in `entry_`. -/
theorem click_count_dot (s : State) (b : Button) (h : s.entry_.count '.' ≤ 1) :
    (click b s).entry_.count '.' ≤ 1 := by
  cases b with
  | digit d =>
    show (insertDigit (d.val : Int) s).entry_.count '.' ≤ 1
    rw [insertDigit_entry, List.count_append, intText_count_dot]
    split_ifs
    · simp
    · simpa using h
  | decimal =>
    show (insertDot s).entry_.count '.' ≤ 1
    rcases insertDot_cases s with h' | ⟨-, -, h'⟩ | ⟨hc, -, h'⟩
    · rw [h']
      show (['0', '.'] : QString).count '.' ≤ 1
      decide
    · rw [h']
      exact h
    · rw [h']
      show (s.entry_ ++ ['.']).count '.' ≤ 1
      rw [List.count_append, count_dot_of_not_contains _ hc]
      decide
  | C => show (['0'] : QString).count '.' ≤ 1; decide
  | CE => show (['0'] : QString).count '.' ≤ 1; decide
  | Delete =>
    show (backspace s).entry_.count '.' ≤ 1
    rw [backspace_entry]
    split_ifs
    · decide
    · decide
    · exact le_trans (chop_count_le _ _ _) h
  | PosNeg =>
    show (toggleSign s).entry_.count '.' ≤ 1
    rcases toggleSign_cases s with ⟨-, h'⟩ | ⟨v, -, h'⟩
    · rw [h']
      exact h
    · rw [h']
      exact number_count_dot _
  | Add => show (setOp ['+'] s).entry_.count '.' ≤ 1; rw [setOp_entry]; decide
  | Minus => show (setOp ['-'] s).entry_.count '.' ≤ 1; rw [setOp_entry]; decide
  | Multiply => show (setOp ['*'] s).entry_.count '.' ≤ 1; rw [setOp_entry]; decide
  | Divide => show (setOp ['÷'] s).entry_.count '.' ≤ 1; rw [setOp_entry]; decide
  | Equals =>
    show (equals s).entry_.count '.' ≤ 1
    by_cases hp : s.pendingOp_ = []
    · rw [equals_of_pendingOp_nil s hp]
      exact h
    · rw [(equals_of_pendingOp_ne_nil s hp).2.2.2.1]
      exact le_trans (normalizeNumber_count_dot _) (number_count_dot _)

/-- C11: in every state reachable from the constructor state by clicks (digits, point,
clear, backspace, sign, the four operators, equals), `entry_` contains at most one
decimal point. -/
theorem entry_at_most_one_dot (s : State) (h : Reachable s) : s.entry_.count '.' ≤ 1 :=
  Reachable.induction (fun t => t.entry_.count '.' ≤ 1) (by decide) click_count_dot s h

/-- Witness for `entry_at_most_one_dot`: after `1`, `.`, `.`, `5`, `.` the entry is
`1.5`, with one point. -/
theorem entry_at_most_one_dot_witness :
    Reachable (run [.digit 1, .decimal, .decimal, .digit 5, .decimal] init) ∧
    (run [.digit 1, .decimal, .decimal, .digit 5, .decimal] init).entry_ = "1.5".toList ∧
    (run [.digit 1, .decimal, .decimal, .digit 5, .decimal] init).entry_.count '.' ≤ 1 :=
  ⟨⟨_, rfl⟩, by decide,
   entry_at_most_one_dot (run [.digit 1, .decimal, .decimal, .digit 5, .decimal] init) ⟨_, rfl⟩⟩

/-! ## Strings in `entry_` and `expr_` that are not numbers -/

/-- C12: the exponent form is not kept by `normalizeNumber`.  The value `1.5 * 10 ^ 20`
is printed as `1.5e+20`, and `normalizeNumber` chops the last `0` of the exponent,
leaving `1.5e+2`, which denotes `150`.  The clicks `300000000000`, `*`, `500000000`,
`=` compute `1.5 * 10 ^ 20` and leave `1.5e+2` in `entry_` and in the display. -/
theorem normalizeNumber_chops_exponent :
    number (Dbl.fin 150000000000000000000) = "1.5e+20".toList ∧
    normalizeNumber "1.5e+20".toList = "1.5e+2".toList ∧
    toDouble "1.5e+20".toList = some (Dbl.fin 150000000000000000000) ∧
    toDouble (normalizeNumber "1.5e+20".toList) = some (Dbl.fin 150) ∧
    toDouble (normalizeNumber "1.5e+20".toList) ≠ toDouble "1.5e+20".toList ∧
    (run (typeNat 300000000000 ++ [.Multiply] ++ typeNat 500000000 ++ [.Equals]) init).total
      = Dbl.fin 150000000000000000000 ∧
    (run (typeNat 300000000000 ++ [.Multiply] ++ typeNat 500000000 ++ [.Equals]) init).entry_
      = "1.5e+2".toList ∧
    (run (typeNat 300000000000 ++ [.Multiply] ++ typeNat 500000000 ++ [.Equals])
      init).lineEdit_Output = "300000000000 * 500000000 = 1.5e+2".toList := by
  refine ⟨by decide, by decide, by decide, by decide, by decide, ?_, ?_, ?_⟩ <;> decide

/-- No string of the form `t`, blank, operator, blank with `t` a number is the string
made of `-`, a blank, `+` and a blank. -/
theorem bare_minus_expr_not_number_form (t : QString) (o : Operator)
    (h : ['-', ' ', '+', ' '] = t ++ [' '] ++ o.symbol ++ [' ']) : toDouble t = none := by
  obtain ⟨c, hc⟩ := o.symbol_eq_singleton
  rw [hc] at h
  have hlen := congrArg List.length h
  simp only [List.length_cons, List.length_nil, List.length_append] at hlen
  match t, hlen with
  | [x], _ =>
    simp only [List.cons_append, List.nil_append, List.cons.injEq] at h
    rw [← h.1]
    decide

/-- C13: an `expr_` whose first part is not a number.  The clicks `5`, sign, backspace
leave `-` in `entry_`; the operator `+` then starts a chain with the accumulator `0`
and the `expr_` made of `-`, a blank, `+` and a blank; `-` does not parse as a number,
so this reachable `expr_` is neither empty nor a number followed by a blank, an
operator and a blank. -/
theorem expr_with_bare_minus :
    Reachable (run [.digit 5, .PosNeg, .Delete, .Add] init) ∧
    (run [.digit 5, .PosNeg, .Delete, .Add] init).expr_ = ['-'] ++ [' '] ++ ['+'] ++ [' '] ∧
    toDouble ['-'] = none ∧
    normalizeNumber ['-'] = ['-'] ∧
    (run [.digit 5, .PosNeg, .Delete, .Add] init).total = Dbl.fin 0 ∧
    (run [.digit 5, .PosNeg, .Delete, .Add] init).lineEdit_Output = "- + ".toList ∧
    ¬ ((run [.digit 5, .PosNeg, .Delete, .Add] init).expr_ = [] ∨
        ∃ (t : QString) (o : Operator),
          (run [.digit 5, .PosNeg, .Delete, .Add] init).expr_ = t ++ [' '] ++ o.symbol ++ [' '] ∧
          toDouble t ≠ none) := by
  have hexpr : (run [.digit 5, .PosNeg, .Delete, .Add] init).expr_ = ['-', ' ', '+', ' '] := by
    decide
  refine ⟨⟨_, rfl⟩, by decide, by decide, by decide, by decide, by decide, ?_⟩
  rintro (h | ⟨t, o, h, hp⟩)
  · rw [hexpr] at h
    exact absurd h (by decide)
  · rw [hexpr] at h
    exact hp (bare_minus_expr_not_number_form t o h)

/-- C14: an `entry_` that is not a number.  The clicks `5`, sign leave `-5` in `entry_`,
and backspace, which keeps a one-character entry from becoming empty, chops `-5` to
`-`, which does not parse; `5`, `+`, point leave the bare `.` in `entry_`, which does
not parse either, while the point typed into the constructor state gives `0.`. -/
theorem entry_with_bare_minus :
    Reachable (run [.digit 5, .PosNeg, .Delete] init) ∧
    (run [.digit 5, .PosNeg] init).entry_ = ['-', '5'] ∧
    (run [.digit 5, .PosNeg, .Delete] init).entry_ = ['-'] ∧
    (run [.digit 5, .PosNeg, .Delete] init).entry_ ≠ [] ∧
    toDouble (run [.digit 5, .PosNeg, .Delete] init).entry_ = none ∧
    (run [.digit 5, .Delete] init).entry_ = ['0'] ∧
    (run [.digit 5, .Add, .decimal] init).entry_ = ['.'] ∧
    toDouble (run [.digit 5, .Add, .decimal] init).entry_ = none ∧
    (run [.decimal] init).entry_ = ['0', '.'] :=
  ⟨⟨_, rfl⟩, by decide, by decide, by decide, by decide, by decide, by decide, by decide,
   by decide⟩

/-! ## Checks of the number model on concrete values -/

/-- Values of `number` on some rationals: integers, fractions, the switch to the
exponent form at `10 ^ 15` and below `10 ^ (-4)`, and rounding to fifteen digits. -/
theorem number_values :
    number (Dbl.fin 7) = "7".toList ∧
    number (Dbl.fin (-7)) = "-7".toList ∧
    number (Dbl.fin 0) = "0".toList ∧
    number (Dbl.fin 100) = "100".toList ∧
    number (Dbl.fin (25 / 2)) = "12.5".toList ∧
    number (Dbl.fin (1234567 / 1000)) = "1234.567".toList ∧
    number (Dbl.fin (1 / 3)) = "0.333333333333333".toList ∧
    number (Dbl.fin (2 / 3)) = "0.666666666666667".toList ∧
    number (Dbl.fin 999999999999999) = "999999999999999".toList ∧
    number (Dbl.fin 1000000000000000) = "1e+15".toList ∧
    number (Dbl.fin 9999999999999999) = "1e+16".toList ∧
    number (Dbl.fin 150000000000000000000) = "1.5e+20".toList ∧
    number (Dbl.fin (1 / 10000)) = "0.0001".toList ∧
    number (Dbl.fin (1 / 100000)) = "1e-05".toList ∧
    number (Dbl.fin (-1 / 10000000)) = "-1e-07".toList ∧
    number Dbl.nan = "nan".toList := by
  decide

/-- Values of `toDouble` on some strings. -/
theorem toDouble_values :
    toDouble "12.5".toList = some (Dbl.fin (25 / 2)) ∧
    toDouble "12.".toList = some (Dbl.fin 12) ∧
    toDouble ".5".toList = some (Dbl.fin (1 / 2)) ∧
    toDouble "007".toList = some (Dbl.fin 7) ∧
    toDouble "-5".toList = some (Dbl.fin (-5)) ∧
    toDouble "-1e-07".toList = some (Dbl.fin (-1 / 10000000)) ∧
    toDouble "1.5e+20".toList = some (Dbl.fin 150000000000000000000) ∧
    toDouble "nan".toList = some Dbl.nan ∧
    toDouble "".toList = none ∧
    toDouble "-".toList = none ∧
    toDouble ".".toList = none ∧
    toDouble "1e".toList = none ∧
    toDouble "1.2.3".toList = none := by
  decide

/-- Some runs of the engine from the constructor state. -/
theorem run_values :
    (run [.digit 8, .Multiply, .digit 4, .Equals] init).lineEdit_Output = "8 * 4 = 32".toList ∧
    (run [.digit 5, .Add, .Equals] init).lineEdit_Output = "5 + 5 = 10".toList ∧
    (run [.digit 3, .Minus, .digit 5, .Multiply, .digit 0, .Equals] init).lineEdit_Output
      = "-2 * 0 = 0".toList ∧
    (run [.digit 1, .decimal, .digit 5, .Add, .digit 2, .decimal, .digit 5, .Equals]
      init).lineEdit_Output = "1.5 + 2.5 = 4".toList := by
  decide

end SimpleCalculator
